import Mathlib

/-!
Shallow embedding of the concurrent batch trial-decryption scheduler in
`zcash_client_backend/src/scan.rs`.

Modelling conventions:
* The opaque types of the Rust code (key tags `A`, incoming viewing keys,
  domains, outputs, notes, recipients, block hashes, transaction ids) are
  type parameters.
* A crossbeam channel is identified by a natural-number channel id.  A
  `Sender` clone is represented by the channel id it points at; the set of
  live senders of a channel is exactly the set of repliers holding its id.
  Messages sent on channels are recorded in a `delivered` list of
  (channel id, item) pairs.
* The external batched trial-decryption primitive
  `batch::try_compact_note_decryption` is modelled by a per-output function
  `decryptOne`, mapped over the outputs; this encodes its documented
  guarantee that result order corresponds one-to-one with input order.
* `rayon::spawn_fifo` submission is modelled by recording the submitted
  batch and delivering its channel sends at submission time.  For the
  executions examined by the theorems below this scheduling choice is
  observationally equivalent to any asynchronous schedule, because a
  receiver's liveness can only change at an overwriting registration and
  `collect_results` returns only after the relevant batch has completed.
* A Rust `assert!`/`assert_eq!` failure (panic) is modelled by `Option`:
  operations that can pass through an assertion return `none` on failure.
-/

set_option maxHeartbeats 1000000
set_option linter.unusedSectionVars false
set_option linter.unusedVariables false

namespace Scan

/-- A decrypted note (struct `DecryptedNote` of scan.rs): the tag of the
incoming viewing key that decrypted it, the recipient, and the note. -/
structure DecryptedNote (A Recipient Note : Type) where
  ivk_tag : A
  recipient : Recipient
  note : Note
  deriving DecidableEq

/-- A value correlated with an output index (struct `OutputIndex` of scan.rs). -/
structure OutputIndex (V : Type) where
  output_index : Nat
  value : V
  deriving DecidableEq

/-- An `OutputItem` is an `OutputIndex` carrying a decrypted note. -/
abbrev OutputItem (A Recipient Note : Type) := OutputIndex (DecryptedNote A Recipient Note)

/-- An output replier: an `OutputIndex` whose payload is a sender, which we
model by the id of the channel it sends into. -/
abbrev OutputReplier := OutputIndex Nat

variable {A IVK D Output Note Recipient BlockTag TxId : Type}

/-- A batch of outputs to trial decrypt (struct `Batch` of scan.rs):
parallel `tags`/`ivks` arrays, and parallel `outputs`/`repliers` arrays. -/
structure Batch (A IVK D Output : Type) where
  tags : List A
  ivks : List IVK
  outputs : List (D × Output)
  repliers : List OutputReplier
  deriving DecidableEq

/-- `Batch::new`: asserts `tags.len() == ivks.len()` (panic is `none`),
then returns a batch with empty `outputs` and `repliers`. -/
def Batch.fresh (tags : List A) (ivks : List IVK) : Option (Batch A IVK D Output) :=
  if tags.length = ivks.length then
    some { tags := tags, ivks := ivks, outputs := [], repliers := [] }
  else
    none

/-- `Batch::is_empty`: the batch is empty iff `outputs` is. -/
def Batch.is_empty (b : Batch A IVK D Output) : Bool :=
  b.outputs.isEmpty

/-- `Batch::add_outputs`: appends one `(domain(), output)` pair per output,
and one replier per output, each a clone of `replier` tagged with the
output's position inside the given slice. -/
def Batch.add_outputs (b : Batch A IVK D Output) (domain : Unit → D)
    (outputs : List Output) (replier : Nat) : Batch A IVK D Output :=
  { b with
    outputs := b.outputs ++ outputs.map (fun output => (domain (), output)),
    repliers := b.repliers ++ (List.range outputs.length).map (fun output_index =>
      { output_index := output_index, value := replier }) }

/-- The external batched trial-decryption primitive
(`batch::try_compact_note_decryption`): per output, in input order, either
`none` or `some ((note, recipient), ivk_idx)`. -/
def tryCompactNoteDecryption
    (decryptOne : List IVK → D × Output → Option ((Note × Recipient) × Nat))
    (ivks : List IVK) (outputs : List (D × Output)) :
    List (Option ((Note × Recipient) × Nat)) :=
  outputs.map (decryptOne ivks)

/-- The result-dispatch loop of `Batch::run`, over the zip of decryption
results and repliers: a successful decryption is wrapped with the replier's
output index and the tag at the matched key index, and sent on the
replier's channel; a send onto a channel whose receiver is gone (`live`
is false) fails, and the loop breaks, dropping the remaining repliers. -/
def runLoop [Inhabited A] (tags : List A) (live : Nat → Bool) :
    List (Option ((Note × Recipient) × Nat) × OutputReplier) →
      List (Nat × OutputItem A Recipient Note)
  | [] => []
  | (none, _) :: rest => runLoop tags live rest
  | (some ((note, recipient), ivk_idx), replier) :: rest =>
    if live replier.value then
      (replier.value,
        { output_index := replier.output_index,
          value :=
            { ivk_tag := tags.getD ivk_idx default,
              recipient := recipient, note := note } }) :: runLoop tags live rest
    else
      []

/-- `Batch::run` (as a `Task`): runs batched trial decryption over
`(ivks, outputs)` and dispatches each successful result to its replier,
breaking at the first failed send.  Returns the list of successful sends
as (channel id, item) pairs. -/
def Batch.run [Inhabited A]
    (decryptOne : List IVK → D × Output → Option ((Note × Recipient) × Nat))
    (live : Nat → Bool) (b : Batch A IVK D Output) :
    List (Nat × OutputItem A Recipient Note) :=
  runLoop b.tags live
    ((tryCompactNoteDecryption decryptOne b.ivks b.outputs).zip b.repliers)

/-! ### The pending-results map

`HashMap<ResultKey, BatchReceiver>` is modelled as an association list from
result keys to channel ids, with `HashMap::insert` overwrite semantics. -/

/-- `ResultKey(block_tag, txid)` of scan.rs. -/
structure ResultKey (BlockTag TxId : Type) where
  block_tag : BlockTag
  txid : TxId
  deriving DecidableEq

/-- `HashMap::insert`: binds `k` to `v`, replacing any previous binding of
`k` (the previous value — the old receiver — is dropped). -/
def insertKey [DecidableEq K] (k : K) (v : Nat) : List (K × Nat) → List (K × Nat)
  | [] => [(k, v)]
  | (k0, v0) :: rest => if k0 = k then (k, v) :: rest else (k0, v0) :: insertKey k v rest

/-- `HashMap::get`-style lookup. -/
def lookupKey [DecidableEq K] (k : K) : List (K × Nat) → Option Nat
  | [] => none
  | (k0, v0) :: rest => if k0 = k then some v0 else lookupKey k rest

/-- `HashMap::remove`: removes the binding of `k`, if any. -/
def removeKey [DecidableEq K] (k : K) : List (K × Nat) → List (K × Nat)
  | [] => []
  | (k0, v0) :: rest => if k0 = k then rest else (k0, v0) :: removeKey k rest

/-- A channel's receiver is alive iff some key of the pending-results map is
still bound to it (receivers are dropped on overwrite or collection). -/
def liveChans (pending : List (K × Nat)) (c : Nat) : Bool :=
  pending.any (fun kv => kv.2 = c)

/-! ### The usage-tracking task strategy (`WithUsage`, `WithUsageTask`)

The shared `Arc<AtomicUsize>` counter is modelled by a natural number kept
below `2 ^ 64`; `fetch_add`/`fetch_sub` wrap modulo `2 ^ 64` like the
machine operations do. -/

/-- The modulus of `usize`/`AtomicUsize` arithmetic on a 64-bit target. -/
def USIZE_MOD : Nat := 2 ^ 64

/-- `AtomicUsize::fetch_add` result value: wrapping addition. -/
def wrapAdd (a b : Nat) : Nat := (a + b) % USIZE_MOD

/-- `AtomicUsize::fetch_sub` result value: wrapping subtraction. -/
def wrapSub (a b : Nat) : Nat := (a + (USIZE_MOD - b % USIZE_MOD)) % USIZE_MOD

/-- The `WithUsage` strategy state: the current value of the shared
`running_usage` counter. -/
structure WithUsage where
  running_usage : Nat
  deriving DecidableEq

/-- A `WithUsageTask`: the wrapped item together with its recorded heap
footprint (`own_usage`); the shared counter handle is the `WithUsage`
state threaded alongside. -/
structure WithUsageTask (Item : Type) where
  item : Item
  own_usage : Nat
  deriving DecidableEq

/-- The footprint computed by `WithUsage::add_task`:
`mem::size_of::<Arc<()>>() + mem::size_of_val(&task) + item.dynamic_usage()`,
as wrapping `usize` arithmetic.  `arcSize` and `taskStructSize` are the two
`mem::size_of` constants; `itemUsage` is the item's `dynamic_usage`. -/
def taskFootprint (arcSize taskStructSize : Nat) (itemUsage : Item → Nat)
    (item : Item) : Nat :=
  (arcSize + taskStructSize + itemUsage item) % USIZE_MOD

/-- `WithUsage::add_task`: computes the footprint, atomically adds it to the
running-usage counter, and returns the wrapper holding the item and the
footprint. -/
def WithUsage.add_task (arcSize taskStructSize : Nat) (itemUsage : Item → Nat)
    (w : WithUsage) (item : Item) : WithUsage × WithUsageTask Item :=
  let own := taskFootprint arcSize taskStructSize itemUsage item
  ({ running_usage := wrapAdd w.running_usage own },
    { item := item, own_usage := own })

/-- `WithUsageTask::run`: runs the inner item to completion (its effect on an
abstract world `σ` is `innerRun`), then atomically subtracts the recorded
footprint from the counter. -/
def WithUsageTask.run (innerRun : Item → σ → σ) (t : WithUsageTask Item)
    (world : σ) (w : WithUsage) : σ × WithUsage :=
  let world := innerRun t.item world
  (world, { running_usage := wrapSub w.running_usage t.own_usage })

/-! ### The batch runner

`BatchRunner` of scan.rs, with the channel world made explicit:
`next_channel` numbers the channels created so far, `delivered` records the
messages sent by completed batches, and `submitted_batches` records the
batches handed to the task strategy (`running_tasks.run_task`), in order.
A submitted batch's asynchronous execution is modelled as happening at
submission time (see the module comment). -/

structure BatchRunner (A IVK D Output Note Recipient BlockTag TxId : Type) where
  batch_size_threshold : Nat
  /-- The batch currently being accumulated. -/
  acc : Batch A IVK D Output
  /-- Keys of the pending-results map, each bound to its receiver's channel. -/
  pending_results : List (ResultKey BlockTag TxId × Nat)
  /-- The id the next `channel::unbounded()` call will create. -/
  next_channel : Nat
  /-- All messages successfully sent on channels by completed batches. -/
  delivered : List (Nat × OutputItem A Recipient Note)
  /-- The batches submitted to the task strategy, in submission order. -/
  submitted_batches : List (Batch A IVK D Output)
  deriving DecidableEq

/-- `BatchRunner::new`: unzips the `(tag, ivk)` pairs into the parallel
arrays of an initial empty accumulating batch. -/
def BatchRunner.new (batch_size_threshold : Nat) (ivks : List (A × IVK)) :
    BatchRunner A IVK D Output Note Recipient BlockTag TxId :=
  let p := ivks.unzip
  { batch_size_threshold := batch_size_threshold,
    acc := { tags := p.1, ivks := p.2, outputs := [], repliers := [] },
    pending_results := [],
    next_channel := 0,
    delivered := [],
    submitted_batches := [] }

variable [DecidableEq BlockTag] [DecidableEq TxId]

/-- `BatchRunner::flush`: if the accumulator is non-empty, swap in a fresh
batch built by `Batch::new` from clones of the current key set (the
assertion inside `Batch::new` is the `Option`), and submit the displaced
batch, whose execution sends on every channel whose receiver is alive. -/
def BatchRunner.flush [Inhabited A]
    (decryptOne : List IVK → D × Output → Option ((Note × Recipient) × Nat))
    (s : BatchRunner A IVK D Output Note Recipient BlockTag TxId) :
    Option (BatchRunner A IVK D Output Note Recipient BlockTag TxId) :=
  if s.acc.is_empty then
    some s
  else
    (Batch.fresh s.acc.tags s.acc.ivks).map fun b =>
      { s with
        acc := b,
        delivered := s.delivered ++
          s.acc.run decryptOne (liveChans s.pending_results),
        submitted_batches := s.submitted_batches ++ [s.acc] }

/-- `BatchRunner::add_outputs`: creates a fresh channel, appends the outputs
to the accumulating batch with its sender, records the receiver in the
pending-results map under `(block_tag, txid)` (overwriting any prior entry
for that key), then flushes if the accumulated size is at least the
threshold. -/
def BatchRunner.add_outputs [Inhabited A]
    (decryptOne : List IVK → D × Output → Option ((Note × Recipient) × Nat))
    (s : BatchRunner A IVK D Output Note Recipient BlockTag TxId)
    (block_tag : BlockTag) (txid : TxId) (domain : Unit → D)
    (outputs : List Output) :
    Option (BatchRunner A IVK D Output Note Recipient BlockTag TxId) :=
  let tx := s.next_channel
  let s1 := { s with
    acc := s.acc.add_outputs domain outputs tx,
    pending_results :=
      insertKey { block_tag := block_tag, txid := txid } tx s.pending_results,
    next_channel := tx + 1 }
  if s.batch_size_threshold ≤ s1.acc.outputs.length then
    s1.flush decryptOne
  else
    some s1

/-- `BatchRunner::collect_results`: removes the pending receiver for
`(block_tag, txid)` if present (else returns an empty mapping), and drains
its channel until it is empty and disconnected.  If a sender for the
channel is still alive inside the accumulating batch, the drain never
terminates, which we model as `none`; otherwise the result is the mapping
from `(txid, output_index)` to decrypted note built from everything the
completed batches sent on that channel. -/
def BatchRunner.collect_results
    (s : BatchRunner A IVK D Output Note Recipient BlockTag TxId)
    (block_tag : BlockTag) (txid : TxId) :
    Option (BatchRunner A IVK D Output Note Recipient BlockTag TxId ×
      List ((TxId × Nat) × DecryptedNote A Recipient Note)) :=
  match lookupKey { block_tag := block_tag, txid := txid } s.pending_results with
  | none => some (s, [])
  | some c =>
    if s.acc.repliers.any (fun r => r.value = c) then
      none
    else
      some
        ({ s with pending_results :=
            removeKey { block_tag := block_tag, txid := txid } s.pending_results },
          s.delivered.filterMap fun m =>
            if m.1 = c then some ((txid, m.2.output_index), m.2.value) else none)

/-! ### Traces of scheduler operations -/

/-- An event of the producing side of the scheduler: an `add_outputs` call
or an explicit `flush` call. -/
inductive ScanEvent (D Output BlockTag TxId : Type) where
  | addOutputs (block_tag : BlockTag) (txid : TxId) (domain : Unit → D)
      (outputs : List Output)
  | flushEv

/-- One step of the scheduler. -/
def scanStep [Inhabited A]
    (decryptOne : List IVK → D × Output → Option ((Note × Recipient) × Nat))
    (s : BatchRunner A IVK D Output Note Recipient BlockTag TxId) :
    ScanEvent D Output BlockTag TxId →
      Option (BatchRunner A IVK D Output Note Recipient BlockTag TxId)
  | .addOutputs block_tag txid domain outputs =>
    s.add_outputs decryptOne block_tag txid domain outputs
  | .flushEv => s.flush decryptOne

/-- Running a list of scheduler events from a state. -/
def runTrace [Inhabited A]
    (decryptOne : List IVK → D × Output → Option ((Note × Recipient) × Nat)) :
    BatchRunner A IVK D Output Note Recipient BlockTag TxId →
      List (ScanEvent D Output BlockTag TxId) →
      Option (BatchRunner A IVK D Output Note Recipient BlockTag TxId)
  | s, [] => some s
  | s, ev :: evs =>
    match scanStep decryptOne s ev with
    | none => none
    | some s1 => runTrace decryptOne s1 evs

/-- The result keys registered by the `add_outputs` events of a trace, in
order. -/
def addKeys : List (ScanEvent D Output BlockTag TxId) →
    List (ResultKey BlockTag TxId)
  | [] => []
  | .addOutputs block_tag txid _ _ :: evs =>
    { block_tag := block_tag, txid := txid } :: addKeys evs
  | .flushEv :: evs => addKeys evs

/-- The number of `add_outputs` events in a trace (each creates one
channel). -/
def countAdds : List (ScanEvent D Output BlockTag TxId) → Nat
  | [] => 0
  | .addOutputs _ _ _ _ :: evs => countAdds evs + 1
  | .flushEv :: evs => countAdds evs

/-! ### Association-list lemmas -/

theorem lookupKey_insertKey_self [DecidableEq K] (k : K) (v : Nat)
    (l : List (K × Nat)) : lookupKey k (insertKey k v l) = some v := by
  induction l with
  | nil => simp [insertKey, lookupKey]
  | cons kv rest ih =>
    by_cases h : kv.1 = k
    · simp [insertKey, lookupKey, h]
    · simp [insertKey, lookupKey, h, ih]

theorem lookupKey_insertKey_ne [DecidableEq K] {k k1 : K} (v : Nat)
    (l : List (K × Nat)) (h : k1 ≠ k) :
    lookupKey k1 (insertKey k v l) = lookupKey k1 l := by
  induction l with
  | nil => simp [insertKey, lookupKey, Ne.symm h]
  | cons kv rest ih =>
    by_cases h0 : kv.1 = k
    · simp [insertKey, lookupKey, h0, Ne.symm h]
    · by_cases h1 : kv.1 = k1 <;> simp [insertKey, lookupKey, h0, h1, h, ih]

theorem mem_insertKey [DecidableEq K] {k : K} {v : Nat} {l : List (K × Nat)}
    {kv : K × Nat} (h : kv ∈ insertKey k v l) : kv = (k, v) ∨ kv ∈ l := by
  induction l with
  | nil => simpa [insertKey] using h
  | cons kv0 rest ih =>
    by_cases h0 : kv0.1 = k
    · simp only [insertKey, h0, if_pos, List.mem_cons] at h
      rcases h with h | h
      · exact Or.inl h
      · exact Or.inr (List.mem_cons_of_mem _ h)
    · simp only [insertKey, h0, if_neg, not_false_iff, List.mem_cons] at h
      rcases h with h | h
      · exact Or.inr (by simp [h])
      · rcases ih h with h | h
        · exact Or.inl h
        · exact Or.inr (List.mem_cons_of_mem _ h)

theorem keys_insertKey_of_mem [DecidableEq K] {k : K} (v : Nat)
    {l : List (K × Nat)} (h : k ∈ l.map Prod.fst) :
    (insertKey k v l).map Prod.fst = l.map Prod.fst := by
  induction l with
  | nil => simp at h
  | cons kv0 rest ih =>
    by_cases h0 : kv0.1 = k
    · simp [insertKey, h0]
    · simp only [List.map_cons, List.mem_cons] at h
      rcases h with h | h
      · exact absurd h.symm h0
      · simp [insertKey, h0, ih h]

theorem insertKey_of_not_mem [DecidableEq K] {k : K} (v : Nat)
    {l : List (K × Nat)} (h : k ∉ l.map Prod.fst) :
    insertKey k v l = l ++ [(k, v)] := by
  induction l with
  | nil => rfl
  | cons kv0 rest ih =>
    simp only [List.map_cons, List.mem_cons] at h
    push_neg at h
    simp [insertKey, Ne.symm h.1, ih h.2]

theorem mem_of_lookupKey [DecidableEq K] {k : K} {v : Nat} {l : List (K × Nat)}
    (h : lookupKey k l = some v) : (k, v) ∈ l := by
  induction l with
  | nil => simp [lookupKey] at h
  | cons kv rest ih =>
    obtain ⟨k0, v0⟩ := kv
    by_cases h0 : k0 = k
    · subst h0
      simp only [lookupKey, if_pos, Option.some.injEq] at h
      subst h
      exact List.mem_cons_self _ _
    · simp only [lookupKey, h0, if_neg, not_false_iff] at h
      exact List.mem_cons_of_mem _ (ih h)

theorem lookupKey_eq_none [DecidableEq K] {k : K} {l : List (K × Nat)}
    (h : ∀ v, (k, v) ∉ l) : lookupKey k l = none := by
  induction l with
  | nil => rfl
  | cons kv rest ih =>
    by_cases h0 : kv.1 = k
    · exact absurd (h kv.2) (by simp [← h0])
    · simp only [lookupKey, h0, if_neg, not_false_iff]
      exact ih fun v hv => h v (List.mem_cons_of_mem _ hv)

theorem liveChans_eq_false_iff [DecidableEq K] {l : List (K × Nat)} {c : Nat} :
    liveChans l c = false ↔ ∀ kv ∈ l, kv.2 ≠ c := by
  simp [liveChans, List.any_eq_false]

theorem liveChans_eq_true_of_mem [DecidableEq K] {l : List (K × Nat)} {k : K}
    {c : Nat} (h : (k, c) ∈ l) : liveChans l c = true := by
  simp only [liveChans, List.any_eq_true]
  exact ⟨(k, c), h, by simp⟩

theorem keys_insertKey_nodup [DecidableEq K] {k : K} (v : Nat)
    {l : List (K × Nat)} (h : (l.map Prod.fst).Nodup) :
    ((insertKey k v l).map Prod.fst).Nodup := by
  by_cases h0 : k ∈ l.map Prod.fst
  · rw [keys_insertKey_of_mem v h0]
    exact h
  · rw [insertKey_of_not_mem v h0]
    simp only [List.map_append, List.map_cons, List.map_nil]
    exact List.Nodup.append h (List.nodup_singleton k)
      (by simpa [List.disjoint_singleton] using h0)

theorem vals_insertKey_nodup [DecidableEq K] {k : K} {n : Nat}
    {l : List (K × Nat)} (hb : ∀ kv ∈ l, kv.2 < n)
    (hnd : (l.map Prod.snd).Nodup) :
    ((insertKey k n l).map Prod.snd).Nodup := by
  induction l with
  | nil => simp [insertKey]
  | cons kv0 rest ih =>
    simp only [List.map_cons, List.nodup_cons] at hnd
    by_cases h0 : kv0.1 = k
    · simp only [insertKey, h0, if_pos, List.map_cons, List.nodup_cons]
      refine ⟨fun hmem => ?_, hnd.2⟩
      obtain ⟨kv, hkv, hkv2⟩ := List.mem_map.mp hmem
      exact absurd hkv2 (Nat.ne_of_lt (hb kv (List.mem_cons_of_mem _ hkv)))
    · simp only [insertKey, h0, if_neg, not_false_iff, List.map_cons,
        List.nodup_cons]
      refine ⟨fun hmem => ?_,
        ih (fun kv hkv => hb kv (List.mem_cons_of_mem _ hkv)) hnd.2⟩
      obtain ⟨kv, hkv, hkv2⟩ := List.mem_map.mp hmem
      rcases mem_insertKey hkv with h1 | h1
      · subst h1
        exact absurd hkv2.symm
          (Nat.ne_of_lt (hb kv0 (List.mem_cons_self _ _)))
      · exact hnd.1 (hkv2 ▸ List.mem_map_of_mem Prod.snd h1)

theorem liveChans_insertKey_overwrite [DecidableEq K] {k : K} {n c : Nat}
    {l : List (K × Nat)} (hb : ∀ kv ∈ l, kv.2 < n)
    (hvnd : (l.map Prod.snd).Nodup) (hl : lookupKey k l = some c) :
    liveChans (insertKey k n l) c = false := by
  induction l with
  | nil => simp [lookupKey] at hl
  | cons kv0 rest ih =>
    obtain ⟨k0, v0⟩ := kv0
    simp only [List.map_cons, List.nodup_cons] at hvnd
    by_cases h0 : k0 = k
    · subst h0
      simp only [lookupKey, if_pos, Option.some.injEq] at hl
      subst hl
      rw [liveChans_eq_false_iff]
      intro kv hkv
      simp only [insertKey, if_pos, List.mem_cons] at hkv
      rcases hkv with h1 | h1
      · subst h1
        exact Nat.ne_of_gt (hb (k0, v0) (List.mem_cons_self _ _))
      · exact fun h2 => hvnd.1 (h2 ▸ List.mem_map_of_mem Prod.snd h1)
    · simp only [lookupKey, h0, if_neg, not_false_iff] at hl
      have hrest := ih (fun kv hkv => hb kv (List.mem_cons_of_mem _ hkv)) hvnd.2 hl
      rw [liveChans_eq_false_iff] at hrest ⊢
      intro kv hkv
      simp only [insertKey, h0, if_neg, not_false_iff, List.mem_cons] at hkv
      rcases hkv with h1 | h1
      · subst h1
        intro h2
        apply hvnd.1
        rw [show v0 = c from h2]
        exact List.mem_map_of_mem Prod.snd (mem_of_lookupKey hl)
      · exact hrest kv h1

/-! ### Batch lemmas -/

theorem Batch.add_outputs_tags (b : Batch A IVK D Output) (domain : Unit → D)
    (outputs : List Output) (replier : Nat) :
    (b.add_outputs domain outputs replier).tags = b.tags := rfl

theorem Batch.add_outputs_ivks (b : Batch A IVK D Output) (domain : Unit → D)
    (outputs : List Output) (replier : Nat) :
    (b.add_outputs domain outputs replier).ivks = b.ivks := rfl

theorem Batch.add_outputs_outputs_length (b : Batch A IVK D Output)
    (domain : Unit → D) (outputs : List Output) (replier : Nat) :
    (b.add_outputs domain outputs replier).outputs.length =
      b.outputs.length + outputs.length := by
  simp [Batch.add_outputs]

theorem Batch.add_outputs_repliers_length (b : Batch A IVK D Output)
    (domain : Unit → D) (outputs : List Output) (replier : Nat) :
    (b.add_outputs domain outputs replier).repliers.length =
      b.repliers.length + outputs.length := by
  simp [Batch.add_outputs]

theorem Batch.add_outputs_repliers_mem {b : Batch A IVK D Output}
    {domain : Unit → D} {outputs : List Output} {replier : Nat}
    {r : OutputReplier} (h : r ∈ (b.add_outputs domain outputs replier).repliers) :
    r ∈ b.repliers ∨ r.value = replier := by
  simp only [Batch.add_outputs, List.mem_append, List.mem_map,
    List.mem_range] at h
  rcases h with h | ⟨i, _, hi⟩
  · exact Or.inl h
  · exact Or.inr (by rw [← hi])

/-- Every send produced by the dispatch loop goes to the channel of one of
the repliers it was given. -/
theorem runLoop_mem_chan [Inhabited A] {tags : List A} {live : Nat → Bool}
    {l : List (Option ((Note × Recipient) × Nat) × OutputReplier)} {c : Nat}
    {m : OutputItem A Recipient Note} (h : (c, m) ∈ runLoop tags live l) :
    ∃ p ∈ l, p.2.value = c := by
  induction l with
  | nil => simp [runLoop] at h
  | cons p rest ih =>
    obtain ⟨res, rep⟩ := p
    match res with
    | none =>
      rw [runLoop] at h
      obtain ⟨p, hp, hpc⟩ := ih h
      exact ⟨p, List.mem_cons_of_mem _ hp, hpc⟩
    | some ((note, recipient), ivk_idx) =>
      rw [runLoop] at h
      by_cases hlive : live rep.value
      · simp only [hlive, if_pos, List.mem_cons, Prod.mk.injEq] at h
        rcases h with ⟨h1, _⟩ | h1
        · exact ⟨(some ((note, recipient), ivk_idx), rep),
            List.mem_cons_self _ _, h1.symm⟩
        · obtain ⟨p, hp, hpc⟩ := ih h1
          exact ⟨p, List.mem_cons_of_mem _ hp, hpc⟩
      · simp [hlive] at h

theorem Batch.run_mem_chan [Inhabited A]
    {decryptOne : List IVK → D × Output → Option ((Note × Recipient) × Nat)}
    {live : Nat → Bool} {b : Batch A IVK D Output} {c : Nat}
    {m : OutputItem A Recipient Note}
    (h : (c, m) ∈ b.run decryptOne live) : ∃ r ∈ b.repliers, r.value = c := by
  obtain ⟨p, hp, hpc⟩ := runLoop_mem_chan h
  exact ⟨p.2, (List.of_mem_zip hp).2, hpc⟩

/-! ### Characterizations of `flush` and `add_outputs` -/

/-- The state after the intermediate part of `BatchRunner::add_outputs`
(channel creation, batch append, pending-results insert), before the
threshold check. -/
def addOutputsCore (s : BatchRunner A IVK D Output Note Recipient BlockTag TxId)
    (block_tag : BlockTag) (txid : TxId) (domain : Unit → D)
    (outputs : List Output) :
    BatchRunner A IVK D Output Note Recipient BlockTag TxId :=
  { s with
    acc := s.acc.add_outputs domain outputs s.next_channel,
    pending_results := insertKey { block_tag := block_tag, txid := txid }
      s.next_channel s.pending_results,
    next_channel := s.next_channel + 1 }

theorem add_outputs_eq [Inhabited A]
    (decryptOne : List IVK → D × Output → Option ((Note × Recipient) × Nat))
    (s : BatchRunner A IVK D Output Note Recipient BlockTag TxId)
    (block_tag : BlockTag) (txid : TxId) (domain : Unit → D)
    (outputs : List Output) :
    s.add_outputs decryptOne block_tag txid domain outputs =
      (if s.batch_size_threshold ≤
          s.acc.outputs.length + outputs.length then
        (addOutputsCore s block_tag txid domain outputs).flush decryptOne
      else
        some (addOutputsCore s block_tag txid domain outputs)) := by
  rw [BatchRunner.add_outputs]
  simp only [addOutputsCore, Batch.add_outputs_outputs_length]

/-- The state after a non-trivial flush. -/
def flushedState [Inhabited A]
    (decryptOne : List IVK → D × Output → Option ((Note × Recipient) × Nat))
    (s : BatchRunner A IVK D Output Note Recipient BlockTag TxId) :
    BatchRunner A IVK D Output Note Recipient BlockTag TxId :=
  { s with
    acc := { tags := s.acc.tags, ivks := s.acc.ivks,
             outputs := [], repliers := [] },
    delivered := s.delivered ++ s.acc.run decryptOne (liveChans s.pending_results),
    submitted_batches := s.submitted_batches ++ [s.acc] }

theorem flush_eq_empty [Inhabited A]
    (decryptOne : List IVK → D × Output → Option ((Note × Recipient) × Nat))
    {s : BatchRunner A IVK D Output Note Recipient BlockTag TxId}
    (h : s.acc.outputs = []) : s.flush decryptOne = some s := by
  rw [BatchRunner.flush]
  simp [Batch.is_empty, h]

theorem flush_eq_nonempty [Inhabited A]
    (decryptOne : List IVK → D × Output → Option ((Note × Recipient) × Nat))
    {s : BatchRunner A IVK D Output Note Recipient BlockTag TxId}
    (h : s.acc.outputs ≠ [])
    (hlen : s.acc.tags.length = s.acc.ivks.length) :
    s.flush decryptOne = some (flushedState decryptOne s) := by
  rw [BatchRunner.flush]
  simp [Batch.is_empty, h, Batch.fresh, hlen, flushedState]

/-! ### The reachable-state invariant -/

/-- The invariant maintained by every batch runner reachable from
`BatchRunner.new`, relative to the key set it was constructed with:
the accumulating batch always carries the original key set; outputs and
repliers stay parallel (in the accumulator and in every submitted batch);
every channel id in use was created by some `add_outputs` call; the
pending-results map binds each key at most once and no two keys to the
same receiver. -/
structure RunnerInv (keys : List (A × IVK))
    (s : BatchRunner A IVK D Output Note Recipient BlockTag TxId) : Prop where
  tags_eq : s.acc.tags = keys.map Prod.fst
  ivks_eq : s.acc.ivks = keys.map Prod.snd
  acc_len : s.acc.outputs.length = s.acc.repliers.length
  submitted_len : ∀ b ∈ s.submitted_batches, b.outputs.length = b.repliers.length
  acc_chans : ∀ r ∈ s.acc.repliers, r.value < s.next_channel
  submitted_chans : ∀ b ∈ s.submitted_batches, ∀ r ∈ b.repliers,
    r.value < s.next_channel
  pending_chans : ∀ kv ∈ s.pending_results, kv.2 < s.next_channel
  pending_keys_nodup : (s.pending_results.map Prod.fst).Nodup
  pending_vals_nodup : (s.pending_results.map Prod.snd).Nodup
  delivered_chans : ∀ m ∈ s.delivered, m.1 < s.next_channel

theorem runnerInv_new (batch_size_threshold : Nat) (keys : List (A × IVK)) :
    RunnerInv keys
      (@BatchRunner.new A IVK D Output Note Recipient BlockTag TxId
        batch_size_threshold keys) := by
  refine ⟨?_, ?_, ?_, ?_, ?_, ?_, ?_, ?_, ?_, ?_⟩ <;>
    simp [BatchRunner.new, List.unzip_fst, List.unzip_snd]

theorem runnerInv_tags_len {keys : List (A × IVK)}
    {s : BatchRunner A IVK D Output Note Recipient BlockTag TxId}
    (h : RunnerInv keys s) : s.acc.tags.length = s.acc.ivks.length := by
  rw [h.tags_eq, h.ivks_eq, List.length_map, List.length_map]

theorem runnerInv_flush [Inhabited A]
    (decryptOne : List IVK → D × Output → Option ((Note × Recipient) × Nat))
    {keys : List (A × IVK)}
    {s : BatchRunner A IVK D Output Note Recipient BlockTag TxId}
    (h : RunnerInv keys s) :
    ∃ s1, s.flush decryptOne = some s1 ∧ RunnerInv keys s1 ∧
      s1.acc.outputs = [] ∧
      s1.pending_results = s.pending_results ∧
      s1.next_channel = s.next_channel ∧
      s1.batch_size_threshold = s.batch_size_threshold := by
  by_cases hc : s.acc.outputs = []
  · refine ⟨s, flush_eq_empty decryptOne hc, h, hc, rfl, rfl, rfl⟩
  · refine ⟨flushedState decryptOne s,
      flush_eq_nonempty decryptOne hc (runnerInv_tags_len h), ?_, rfl, rfl,
      rfl, rfl⟩
    refine ⟨h.tags_eq, h.ivks_eq, rfl, ?_, ?_, ?_, h.pending_chans,
      h.pending_keys_nodup, h.pending_vals_nodup, ?_⟩
    · intro b hb
      simp only [flushedState, List.mem_append, List.mem_singleton] at hb
      rcases hb with hb | hb
      · exact h.submitted_len b hb
      · rw [hb]
        exact h.acc_len
    · intro r hr
      simp only [flushedState, List.not_mem_nil] at hr
    · intro b hb r hr
      simp only [flushedState, List.mem_append, List.mem_singleton] at hb
      rcases hb with hb | hb
      · exact h.submitted_chans b hb r hr
      · rw [hb] at hr
        exact h.acc_chans r hr
    · intro m hm
      simp only [flushedState, List.mem_append] at hm
      rcases hm with hm | hm
      · exact h.delivered_chans m hm
      · obtain ⟨c, item⟩ := m
        obtain ⟨r, hr, hrc⟩ := Batch.run_mem_chan hm
        simpa [← hrc] using h.acc_chans r hr

theorem runnerInv_addCore {keys : List (A × IVK)}
    {s : BatchRunner A IVK D Output Note Recipient BlockTag TxId}
    (h : RunnerInv keys s) (block_tag : BlockTag) (txid : TxId)
    (domain : Unit → D) (outputs : List Output) :
    RunnerInv keys (addOutputsCore s block_tag txid domain outputs) := by
  refine ⟨h.tags_eq, h.ivks_eq, ?_, h.submitted_len, ?_, ?_, ?_, ?_, ?_, ?_⟩
  · simp only [addOutputsCore, Batch.add_outputs_outputs_length,
      Batch.add_outputs_repliers_length, h.acc_len]
  · intro r hr
    simp only [addOutputsCore] at hr ⊢
    rcases Batch.add_outputs_repliers_mem hr with h1 | h1
    · exact Nat.lt_succ_of_lt (h.acc_chans r h1)
    · rw [h1]
      exact Nat.lt_succ_self _
  · intro b hb r hr
    simp only [addOutputsCore] at hb
    exact Nat.lt_succ_of_lt (h.submitted_chans b hb r hr)
  · intro kv hkv
    simp only [addOutputsCore] at hkv ⊢
    rcases mem_insertKey hkv with h1 | h1
    · rw [h1]
      exact Nat.lt_succ_self _
    · exact Nat.lt_succ_of_lt (h.pending_chans kv h1)
  · exact keys_insertKey_nodup _ h.pending_keys_nodup
  · exact vals_insertKey_nodup h.pending_chans h.pending_vals_nodup
  · intro m hm
    exact Nat.lt_succ_of_lt (h.delivered_chans m hm)

theorem runnerInv_scanStep [Inhabited A]
    (decryptOne : List IVK → D × Output → Option ((Note × Recipient) × Nat))
    {keys : List (A × IVK)}
    {s : BatchRunner A IVK D Output Note Recipient BlockTag TxId}
    (h : RunnerInv keys s) (ev : ScanEvent D Output BlockTag TxId) :
    ∃ s1, scanStep decryptOne s ev = some s1 ∧ RunnerInv keys s1 := by
  match ev with
  | .flushEv =>
    obtain ⟨s1, h1, h2, _⟩ := runnerInv_flush decryptOne h
    exact ⟨s1, h1, h2⟩
  | .addOutputs block_tag txid domain outputs =>
    have hcore := runnerInv_addCore h block_tag txid domain outputs
    rw [scanStep, add_outputs_eq]
    by_cases hth : s.batch_size_threshold ≤ s.acc.outputs.length + outputs.length
    · simp only [hth, if_pos]
      obtain ⟨s1, h1, h2, _⟩ := runnerInv_flush decryptOne hcore
      exact ⟨s1, h1, h2⟩
    · simp only [hth, if_neg, not_false_iff]
      exact ⟨_, rfl, hcore⟩

theorem runnerInv_runTrace [Inhabited A]
    {decryptOne : List IVK → D × Output → Option ((Note × Recipient) × Nat)}
    {keys : List (A × IVK)}
    {s s1 : BatchRunner A IVK D Output Note Recipient BlockTag TxId}
    {evs : List (ScanEvent D Output BlockTag TxId)}
    (h : RunnerInv keys s) (hrun : runTrace decryptOne s evs = some s1) :
    RunnerInv keys s1 := by
  induction evs generalizing s with
  | nil =>
    rw [runTrace, Option.some.injEq] at hrun
    exact hrun ▸ h
  | cons ev evs ih =>
    rw [runTrace] at hrun
    obtain ⟨s2, hstep, hinv⟩ := runnerInv_scanStep decryptOne h ev
    rw [hstep] at hrun
    exact ih hinv hrun

theorem runTrace_total [Inhabited A]
    {decryptOne : List IVK → D × Output → Option ((Note × Recipient) × Nat)}
    {keys : List (A × IVK)}
    {s : BatchRunner A IVK D Output Note Recipient BlockTag TxId}
    (h : RunnerInv keys s) (evs : List (ScanEvent D Output BlockTag TxId)) :
    ∃ s1, runTrace decryptOne s evs = some s1 ∧ RunnerInv keys s1 := by
  induction evs generalizing s with
  | nil => exact ⟨s, rfl, h⟩
  | cons ev evs ih =>
    obtain ⟨s2, hstep, hinv⟩ := runnerInv_scanStep decryptOne h ev
    obtain ⟨s1, hrun, hinv1⟩ := ih hinv
    refine ⟨s1, ?_, hinv1⟩
    rw [runTrace, hstep]
    exact hrun

/-! ### Trace accounting -/

theorem flush_shape [Inhabited A]
    {decryptOne : List IVK → D × Output → Option ((Note × Recipient) × Nat)}
    {s s1 : BatchRunner A IVK D Output Note Recipient BlockTag TxId}
    (h : s.flush decryptOne = some s1) :
    s1.next_channel = s.next_channel ∧
      s1.pending_results = s.pending_results ∧
      s1.batch_size_threshold = s.batch_size_threshold := by
  rw [BatchRunner.flush] at h
  by_cases he : s.acc.is_empty
  · simp only [he, if_pos, Option.some.injEq] at h
    rw [← h]
    exact ⟨rfl, rfl, rfl⟩
  · simp only [he, if_neg, not_false_iff] at h
    obtain ⟨b, _, hs⟩ := Option.map_eq_some'.mp h
    rw [← hs]
    exact ⟨rfl, rfl, rfl⟩

theorem scanStep_next_channel [Inhabited A]
    {decryptOne : List IVK → D × Output → Option ((Note × Recipient) × Nat)}
    {s s1 : BatchRunner A IVK D Output Note Recipient BlockTag TxId}
    {ev : ScanEvent D Output BlockTag TxId}
    (h : scanStep decryptOne s ev = some s1) :
    s1.next_channel = s.next_channel + countAdds [ev] := by
  match ev with
  | .flushEv =>
    rw [scanStep] at h
    rw [(flush_shape h).1]
    simp [countAdds]
  | .addOutputs block_tag txid domain outputs =>
    rw [scanStep, add_outputs_eq] at h
    by_cases hth : s.batch_size_threshold ≤ s.acc.outputs.length + outputs.length
    · simp only [hth, if_pos] at h
      rw [(flush_shape h).1]
      rfl
    · simp only [hth, if_neg, not_false_iff, Option.some.injEq] at h
      rw [← h]
      rfl

theorem runTrace_next_channel [Inhabited A]
    {decryptOne : List IVK → D × Output → Option ((Note × Recipient) × Nat)}
    {s s1 : BatchRunner A IVK D Output Note Recipient BlockTag TxId}
    {evs : List (ScanEvent D Output BlockTag TxId)}
    (h : runTrace decryptOne s evs = some s1) :
    s1.next_channel = s.next_channel + countAdds evs := by
  induction evs generalizing s with
  | nil =>
    rw [runTrace, Option.some.injEq] at h
    rw [← h]
    simp [countAdds]
  | cons ev evs ih =>
    rw [runTrace] at h
    cases hstep : scanStep decryptOne s ev with
    | none => rw [hstep] at h; simp at h
    | some s2 =>
      rw [hstep] at h
      have h2 := scanStep_next_channel hstep
      have h3 := ih h
      have h4 : countAdds (ev :: evs) = countAdds [ev] + countAdds evs := by
        match ev with
        | .flushEv => simp [countAdds]
        | .addOutputs _ _ _ _ =>
          simp only [countAdds]
          omega
      rw [h3, h2, h4]
      omega

theorem scanStep_pending_keys [Inhabited A]
    {decryptOne : List IVK → D × Output → Option ((Note × Recipient) × Nat)}
    {s s1 : BatchRunner A IVK D Output Note Recipient BlockTag TxId}
    {ev : ScanEvent D Output BlockTag TxId}
    (h : scanStep decryptOne s ev = some s1) {kv : ResultKey BlockTag TxId × Nat}
    (hkv : kv ∈ s1.pending_results) :
    kv.1 ∈ s.pending_results.map Prod.fst ∨ kv.1 ∈ addKeys [ev] := by
  match ev with
  | .flushEv =>
    rw [scanStep] at h
    rw [(flush_shape h).2.1] at hkv
    exact Or.inl (List.mem_map_of_mem Prod.fst hkv)
  | .addOutputs block_tag txid domain outputs =>
    rw [scanStep, add_outputs_eq] at h
    have hcore : kv ∈ (addOutputsCore s block_tag txid domain outputs).pending_results →
        kv.1 ∈ s.pending_results.map Prod.fst ∨
          kv.1 ∈ addKeys [ScanEvent.addOutputs block_tag txid domain outputs] := by
      intro hm
      simp only [addOutputsCore] at hm
      rcases mem_insertKey hm with h1 | h1
      · right
        rw [h1]
        simp [addKeys]
      · exact Or.inl (List.mem_map_of_mem Prod.fst h1)
    by_cases hth : s.batch_size_threshold ≤ s.acc.outputs.length + outputs.length
    · simp only [hth, if_pos] at h
      rw [(flush_shape h).2.1] at hkv
      exact hcore hkv
    · simp only [hth, if_neg, not_false_iff, Option.some.injEq] at h
      rw [← h] at hkv
      exact hcore hkv

theorem runTrace_pending_keys [Inhabited A]
    {decryptOne : List IVK → D × Output → Option ((Note × Recipient) × Nat)}
    {s s1 : BatchRunner A IVK D Output Note Recipient BlockTag TxId}
    {evs : List (ScanEvent D Output BlockTag TxId)}
    (h : runTrace decryptOne s evs = some s1) {kv : ResultKey BlockTag TxId × Nat}
    (hkv : kv ∈ s1.pending_results) :
    kv.1 ∈ s.pending_results.map Prod.fst ∨ kv.1 ∈ addKeys evs := by
  induction evs generalizing s with
  | nil =>
    rw [runTrace, Option.some.injEq] at h
    rw [h]
    exact Or.inl (List.mem_map_of_mem Prod.fst hkv)
  | cons ev evs ih =>
    rw [runTrace] at h
    cases hstep : scanStep decryptOne s ev with
    | none => rw [hstep] at h; simp at h
    | some s2 =>
      rw [hstep] at h
      rcases ih h with h1 | h1
      · obtain ⟨kv2, hkv2, hkv2e⟩ := List.mem_map.mp h1
        rcases scanStep_pending_keys hstep hkv2 with h2 | h2
        · exact Or.inl (hkv2e ▸ h2)
        · right
          rw [← hkv2e]
          match ev with
          | .addOutputs b0 t0 d0 o0 =>
            simp only [addKeys, List.mem_cons]
            left
            simpa [addKeys] using h2
          | .flushEv => simp [addKeys] at h2
      · right
        match ev with
        | .addOutputs b0 t0 d0 o0 =>
          rw [addKeys]
          exact List.mem_cons_of_mem _ h1
        | .flushEv =>
          rw [addKeys]
          exact h1

theorem runTrace_lookup_none [Inhabited A]
    {decryptOne : List IVK → D × Output → Option ((Note × Recipient) × Nat)}
    {s s1 : BatchRunner A IVK D Output Note Recipient BlockTag TxId}
    {evs : List (ScanEvent D Output BlockTag TxId)}
    (h : runTrace decryptOne s evs = some s1)
    (hinit : s.pending_results = []) {k : ResultKey BlockTag TxId}
    (hk : k ∉ addKeys evs) : lookupKey k s1.pending_results = none := by
  apply lookupKey_eq_none
  intro v hv
  rcases runTrace_pending_keys h hv with h1 | h1
  · rw [hinit] at h1
    simp at h1
  · exact hk h1

theorem scanStep_threshold [Inhabited A]
    {decryptOne : List IVK → D × Output → Option ((Note × Recipient) × Nat)}
    {s s1 : BatchRunner A IVK D Output Note Recipient BlockTag TxId}
    {ev : ScanEvent D Output BlockTag TxId}
    (h : scanStep decryptOne s ev = some s1) :
    s1.batch_size_threshold = s.batch_size_threshold := by
  match ev with
  | .flushEv =>
    rw [scanStep] at h
    exact (flush_shape h).2.2
  | .addOutputs block_tag txid domain outputs =>
    rw [scanStep, add_outputs_eq] at h
    by_cases hth : s.batch_size_threshold ≤ s.acc.outputs.length + outputs.length
    · simp only [hth, if_pos] at h
      exact (flush_shape h).2.2
    · simp only [hth, if_neg, not_false_iff, Option.some.injEq] at h
      rw [← h]
      rfl

theorem runTrace_threshold [Inhabited A]
    {decryptOne : List IVK → D × Output → Option ((Note × Recipient) × Nat)}
    {s s1 : BatchRunner A IVK D Output Note Recipient BlockTag TxId}
    {evs : List (ScanEvent D Output BlockTag TxId)}
    (h : runTrace decryptOne s evs = some s1) :
    s1.batch_size_threshold = s.batch_size_threshold := by
  induction evs generalizing s with
  | nil =>
    rw [runTrace, Option.some.injEq] at h
    rw [← h]
  | cons ev evs ih =>
    rw [runTrace] at h
    cases hstep : scanStep decryptOne s ev with
    | none => rw [hstep] at h; simp at h
    | some s2 =>
      rw [hstep] at h
      rw [ih h, scanStep_threshold hstep]

/-- Whatever the threshold decides, an `add_outputs` call leaves the
pending-results map equal to the insert of the freshly created receiver. -/
theorem add_outputs_pending [Inhabited A]
    {decryptOne : List IVK → D × Output → Option ((Note × Recipient) × Nat)}
    {s s1 : BatchRunner A IVK D Output Note Recipient BlockTag TxId}
    {block_tag : BlockTag} {txid : TxId} {domain : Unit → D}
    {outputs : List Output}
    (h : s.add_outputs decryptOne block_tag txid domain outputs = some s1) :
    s1.pending_results = insertKey { block_tag := block_tag, txid := txid }
      s.next_channel s.pending_results := by
  rw [add_outputs_eq] at h
  by_cases hth : s.batch_size_threshold ≤ s.acc.outputs.length + outputs.length
  · simp only [hth, if_pos] at h
    exact (flush_shape h).2.1
  · simp only [hth, if_neg, not_false_iff, Option.some.injEq] at h
    rw [← h]
    rfl

/-- Appending an empty output slice leaves the batch unchanged. -/
theorem Batch.add_outputs_nil (b : Batch A IVK D Output) (domain : Unit → D)
    (replier : Nat) : b.add_outputs domain [] replier = b := by
  simp [Batch.add_outputs]

/-- If the pending receiver of `(block_tag, txid)` is a channel with no live
sender in the accumulator and no delivered message, collecting it yields the
empty mapping. -/
theorem collect_results_empty_of_chan
    {s : BatchRunner A IVK D Output Note Recipient BlockTag TxId}
    {block_tag : BlockTag} {txid : TxId} {c : Nat}
    (hl : lookupKey { block_tag := block_tag, txid := txid }
      s.pending_results = some c)
    (hacc : ∀ r ∈ s.acc.repliers, r.value ≠ c)
    (hdel : ∀ m ∈ s.delivered, m.1 ≠ c) :
    s.collect_results block_tag txid =
      some
        ({ s with
            pending_results :=
              removeKey (⟨block_tag, txid⟩ : ResultKey BlockTag TxId)
                s.pending_results },
          []) := by
  have hany : s.acc.repliers.any (fun r => r.value = c) = false := by
    rw [List.any_eq_false]
    intro r hr
    simpa using hacc r hr
  simp only [BatchRunner.collect_results, hl, hany, Bool.false_eq_true,
    if_false, Option.some.injEq, Prod.mk.injEq, true_and]
  rw [List.filterMap_eq_nil_iff]
  intro m hm
  simp [hdel m hm]

/-- The wrapping round-trip identity of the usage counter. -/
theorem wrapSub_wrapAdd {a : Nat} (b : Nat) (ha : a < USIZE_MOD) :
    wrapSub (wrapAdd a b) b = a := by
  have hm : USIZE_MOD = 18446744073709551616 := by norm_num [USIZE_MOD]
  rw [wrapSub, wrapAdd, hm]
  rw [hm] at ha
  omega

/-! ### Concrete instantiation used by witnesses and counterexamples

All type parameters are `Nat`; an output `o` decrypts under the first key
equal to `o % 100`, with note `o` and recipient the domain value. -/

/-- A concrete decryption primitive on natural numbers. -/
def decNat (ivks : List Nat) (p : Nat × Nat) : Option ((Nat × Nat) × Nat) :=
  match ivks.findIdx? (fun k => k = p.2 % 100) with
  | some i => some ((p.2, p.1), i)
  | none => none

/-- The all-`Nat` batch runner. -/
abbrev RunnerN := BatchRunner Nat Nat Nat Nat Nat Nat Nat Nat

/-- The all-`Nat` scheduler event type. -/
abbrev EventN := ScanEvent Nat Nat Nat Nat

/-- A trivial domain factory. -/
def domN : Unit → Nat := fun _ => 0

/-! ### The claims -/

/-- C5: `WithUsage::add_task` atomically adds the computed footprint
(closure-environment estimate plus task struct size plus the item's dynamic
usage) to the shared running-usage counter, and running the returned
`WithUsageTask` runs the inner item to completion and then unconditionally
subtracts the same recorded footprint — one `add_task` followed by that
task's `run` leaves the counter at its prior value. -/
theorem claim_C5_usage_round_trip {Item σ : Type}
    (arcSize taskStructSize : Nat) (itemUsage : Item → Nat)
    (innerRun : Item → σ → σ) (w : WithUsage) (item : Item)
    (h : w.running_usage < USIZE_MOD) :
    (WithUsage.add_task arcSize taskStructSize itemUsage w item).1.running_usage
        = wrapAdd w.running_usage
            (taskFootprint arcSize taskStructSize itemUsage item) ∧
    (WithUsage.add_task arcSize taskStructSize itemUsage w item).2.own_usage
        = taskFootprint arcSize taskStructSize itemUsage item ∧
    ∀ world : σ,
      ((WithUsage.add_task arcSize taskStructSize itemUsage w item).2.run
          innerRun world
          (WithUsage.add_task arcSize taskStructSize itemUsage w item).1).1
        = innerRun item world ∧
      ((WithUsage.add_task arcSize taskStructSize itemUsage w item).2.run
          innerRun world
          (WithUsage.add_task arcSize taskStructSize itemUsage w
            item).1).2.running_usage
        = w.running_usage := by
  refine ⟨rfl, rfl, fun world => ⟨rfl, ?_⟩⟩
  exact wrapSub_wrapAdd _ h

theorem claim_C5_usage_round_trip_witness :
    (⟨5⟩ : WithUsage).running_usage < USIZE_MOD ∧
    ((WithUsage.add_task 8 24 (fun n => n) (⟨5⟩ : WithUsage) 3).2.run
        (fun n st => st + n) 0
        (WithUsage.add_task 8 24 (fun n => n) (⟨5⟩ : WithUsage)
          3).1).2.running_usage = 5 :=
  ⟨by norm_num [USIZE_MOD],
    ((claim_C5_usage_round_trip 8 24 (fun n => n) (fun n st => st + n) ⟨5⟩ 3
      (by norm_num [USIZE_MOD])).2.2 0).2⟩

/-- C6: calling `flush` on a runner whose accumulating batch has no outputs
submits no task and leaves the runner's entire state — accumulator,
pending-results map, submitted tasks, delivered messages — unchanged. -/
theorem claim_C6_empty_flush_noop [Inhabited A]
    (decryptOne : List IVK → D × Output → Option ((Note × Recipient) × Nat))
    {s : BatchRunner A IVK D Output Note Recipient BlockTag TxId}
    (h : s.acc.outputs = []) : s.flush decryptOne = some s :=
  flush_eq_empty decryptOne h

theorem claim_C6_empty_flush_noop_witness :
    (BatchRunner.new 10 [(1, 2)] : RunnerN).acc.outputs = [] ∧
    (BatchRunner.new 10 [(1, 2)] : RunnerN).flush decNat =
      some (BatchRunner.new 10 [(1, 2)]) :=
  ⟨rfl, claim_C6_empty_flush_noop decNat rfl⟩

/-- C8: `Batch::new` fails its assertion exactly when the tag and key arrays
differ in length; on equal lengths it succeeds with the given parallel
arrays and empty outputs and repliers. -/
theorem claim_C8_new_assert (tags : List A) (ivks : List IVK) :
    (tags.length ≠ ivks.length →
      (Batch.fresh tags ivks : Option (Batch A IVK D Output)) = none) ∧
    (tags.length = ivks.length →
      (Batch.fresh tags ivks : Option (Batch A IVK D Output)) =
        some { tags := tags, ivks := ivks, outputs := [], repliers := [] }) := by
  constructor
  · intro h
    simp [Batch.fresh, h]
  · intro h
    simp [Batch.fresh, h]

theorem claim_C8_new_assert_witness :
    (Batch.fresh [1] ([] : List Nat) : Option (Batch Nat Nat Nat Nat)) = none ∧
    (Batch.fresh [1, 2] [5, 6] : Option (Batch Nat Nat Nat Nat)) =
      some { tags := [1, 2], ivks := [5, 6], outputs := [], repliers := [] } :=
  ⟨(claim_C8_new_assert [1] []).1 (by decide),
    (claim_C8_new_assert [1, 2] [5, 6]).2 (by decide)⟩

/-- C9: each `Batch::add_outputs` call grows `outputs` and `repliers` by
exactly the number of outputs passed, and every runner state reachable
through the public operations keeps the two arrays the same length, both in
the accumulator and in every submitted batch — so the length assertion at
the start of `Batch::run` never fires on a batch the runner submits. -/
theorem claim_C9_parallel_arrays [Inhabited A]
    (decryptOne : List IVK → D × Output → Option ((Note × Recipient) × Nat)) :
    (∀ (b : Batch A IVK D Output) (domain : Unit → D) (outputs : List Output)
        (replier : Nat),
      (b.add_outputs domain outputs replier).outputs.length =
          b.outputs.length + outputs.length ∧
      (b.add_outputs domain outputs replier).repliers.length =
          b.repliers.length + outputs.length) ∧
    ∀ (keys : List (A × IVK)) (N : Nat)
      (evs : List (ScanEvent D Output BlockTag TxId))
      (s1 : BatchRunner A IVK D Output Note Recipient BlockTag TxId),
      runTrace decryptOne (BatchRunner.new N keys) evs = some s1 →
      s1.acc.outputs.length = s1.acc.repliers.length ∧
      ∀ b ∈ s1.submitted_batches, b.outputs.length = b.repliers.length := by
  constructor
  · intro b domain outputs replier
    exact ⟨Batch.add_outputs_outputs_length b domain outputs replier,
      Batch.add_outputs_repliers_length b domain outputs replier⟩
  · intro keys N evs s1 h
    have hinv := runnerInv_runTrace (runnerInv_new N keys) h
    exact ⟨hinv.acc_len, hinv.submitted_len⟩

/-- The batch submitted by the run examined in the parallel-arrays witness. -/
def wBatchC9 : Batch Nat Nat Nat Nat :=
  Batch.mk [1] [3] [(0, 103), (0, 5)] [OutputIndex.mk 0 0, OutputIndex.mk 1 0]

/-- The runner state reached in the parallel-arrays witness. -/
def wStateC9 : RunnerN :=
  BatchRunner.mk 2 (Batch.mk [1] [3] [] []) [(ResultKey.mk 0 0, 0)] 1
    [(0, OutputIndex.mk 0 (DecryptedNote.mk 1 0 103))] [wBatchC9]

theorem claim_C9_parallel_arrays_witness :
    runTrace decNat (BatchRunner.new 2 [(1, 3)] : RunnerN)
        [ScanEvent.addOutputs 0 0 domN [103, 5]] = some wStateC9 ∧
    wBatchC9.outputs.length = 2 := by
  constructor
  · rfl
  · exact ((@claim_C9_parallel_arrays Nat Nat Nat Nat Nat Nat Nat Nat _ _ _
      decNat).1 (Batch.mk [1] [3] [] []) domN [103, 5] 0).1

/-- C3: on a reachable runner whose accumulator holds fewer than `N`
outputs, an `add_outputs` call that brings the accumulated count to at
least `N` triggers exactly one flush; afterwards the accumulating batch has
no outputs and no repliers, and its tags and ivks are (clones of) the key
set the runner was constructed with. -/
theorem claim_C3_threshold_flush [Inhabited A]
    (decryptOne : List IVK → D × Output → Option ((Note × Recipient) × Nat))
    (keys : List (A × IVK)) {N : Nat}
    (evs : List (ScanEvent D Output BlockTag TxId))
    {s : BatchRunner A IVK D Output Note Recipient BlockTag TxId}
    (hreach : runTrace decryptOne (BatchRunner.new N keys) evs = some s)
    (block_tag : BlockTag) (txid : TxId) (domain : Unit → D)
    (outputs : List Output)
    (hlt : s.acc.outputs.length < N)
    (hge : N ≤ s.acc.outputs.length + outputs.length) :
    ∃ s1, s.add_outputs decryptOne block_tag txid domain outputs = some s1 ∧
      s1.acc.outputs = [] ∧ s1.acc.repliers = [] ∧
      s1.acc.tags = keys.map Prod.fst ∧ s1.acc.ivks = keys.map Prod.snd ∧
      s1.submitted_batches.length = s.submitted_batches.length + 1 := by
  have hinv := runnerInv_runTrace (runnerInv_new N keys) hreach
  have hth : s.batch_size_threshold = N := runTrace_threshold hreach
  have hcore := runnerInv_addCore hinv block_tag txid domain outputs
  have hclen : (addOutputsCore s block_tag txid domain outputs).acc.outputs.length
      = s.acc.outputs.length + outputs.length := by
    simp [addOutputsCore, Batch.add_outputs_outputs_length]
  have hne : (addOutputsCore s block_tag txid domain outputs).acc.outputs ≠ [] := by
    intro h0
    rw [h0] at hclen
    simp only [List.length_nil] at hclen
    omega
  refine ⟨flushedState decryptOne (addOutputsCore s block_tag txid domain outputs),
    ?_, rfl, rfl, ?_, ?_, ?_⟩
  · rw [add_outputs_eq, hth, if_pos hge]
    exact flush_eq_nonempty decryptOne hne (runnerInv_tags_len hcore)
  · exact hcore.tags_eq
  · exact hcore.ivks_eq
  · simp [flushedState, addOutputsCore]

theorem claim_C3_threshold_flush_witness :
    runTrace decNat (BatchRunner.new 1 [(1, 3)] : RunnerN) [] =
      some (BatchRunner.new 1 [(1, 3)]) ∧
    (BatchRunner.new 1 [(1, 3)] : RunnerN).acc.outputs.length < 1 ∧
    1 ≤ (BatchRunner.new 1 [(1, 3)] : RunnerN).acc.outputs.length +
      ([103] : List Nat).length ∧
    (∃ s1, (BatchRunner.new 1 [(1, 3)] : RunnerN).add_outputs decNat 0 0 domN
        [103] = some s1 ∧
      s1.acc.outputs = [] ∧ s1.acc.repliers = [] ∧
      s1.acc.tags = ([(1, 3)] : List (Nat × Nat)).map Prod.fst ∧
      s1.acc.ivks = ([(1, 3)] : List (Nat × Nat)).map Prod.snd ∧
      s1.submitted_batches.length =
        (BatchRunner.new 1 [(1, 3)] : RunnerN).submitted_batches.length + 1) :=
  ⟨rfl, by decide, by decide,
    claim_C3_threshold_flush decNat [(1, 3)] []
      (rfl : runTrace decNat (BatchRunner.new 1 [(1, 3)] : RunnerN) [] =
        some (BatchRunner.new 1 [(1, 3)]))
      0 0 domN [103] (by decide) (by decide)⟩

/-- C4: registering the same `(block_tag, txid)` again before it is
collected rebinds the pending-results entry to the freshly created
receiver and drops the old receiver (no key remains bound to it), and the
pending-results map binds every key at most once, before and after. -/
theorem claim_C4_duplicate_overwrite [Inhabited A]
    (decryptOne : List IVK → D × Output → Option ((Note × Recipient) × Nat))
    (keys : List (A × IVK)) {N : Nat}
    (evs : List (ScanEvent D Output BlockTag TxId))
    {s : BatchRunner A IVK D Output Note Recipient BlockTag TxId}
    (hreach : runTrace decryptOne (BatchRunner.new N keys) evs = some s)
    (block_tag : BlockTag) (txid : TxId) (domain : Unit → D)
    (outputs : List Output) {c_old : Nat}
    (hold : lookupKey { block_tag := block_tag, txid := txid }
      s.pending_results = some c_old) :
    (s.pending_results.map Prod.fst).Nodup ∧
    ∃ s1, s.add_outputs decryptOne block_tag txid domain outputs = some s1 ∧
      lookupKey { block_tag := block_tag, txid := txid } s1.pending_results =
        some s.next_channel ∧
      liveChans s1.pending_results c_old = false ∧
      (s1.pending_results.map Prod.fst).Nodup := by
  have hinv := runnerInv_runTrace (runnerInv_new N keys) hreach
  obtain ⟨s1, hstep, hinv1⟩ := runnerInv_scanStep decryptOne hinv
    (.addOutputs block_tag txid domain outputs)
  rw [scanStep] at hstep
  have hpend := add_outputs_pending hstep
  refine ⟨hinv.pending_keys_nodup, s1, hstep, ?_, ?_, hinv1.pending_keys_nodup⟩
  · rw [hpend]
    exact lookupKey_insertKey_self _ _ _
  · rw [hpend]
    exact liveChans_insertKey_overwrite hinv.pending_chans
      hinv.pending_vals_nodup hold

/-- The runner state used by the duplicate-registration witness. -/
def wStateC4 : RunnerN :=
  BatchRunner.mk 10 (Batch.mk [1] [3] [(0, 5)] [OutputIndex.mk 0 0])
    [(ResultKey.mk 0 0, 0)] 1 [] []

theorem claim_C4_duplicate_overwrite_witness :
    runTrace decNat (BatchRunner.new 10 [(1, 3)] : RunnerN)
        [ScanEvent.addOutputs 0 0 domN [5]] = some wStateC4 ∧
    lookupKey { block_tag := 0, txid := 0 } wStateC4.pending_results = some 0 ∧
    ((wStateC4.pending_results.map Prod.fst).Nodup ∧
      ∃ s1, wStateC4.add_outputs decNat 0 0 domN [7] = some s1 ∧
        lookupKey { block_tag := 0, txid := 0 } s1.pending_results =
          some wStateC4.next_channel ∧
        liveChans s1.pending_results 0 = false ∧
        (s1.pending_results.map Prod.fst).Nodup) :=
  ⟨rfl, rfl,
    claim_C4_duplicate_overwrite decNat [(1, 3)]
      [ScanEvent.addOutputs 0 0 domN [5]]
      (rfl : runTrace decNat (BatchRunner.new 10 [(1, 3)] : RunnerN)
        [ScanEvent.addOutputs 0 0 domN [5]] = some wStateC4)
      0 0 domN [7] rfl⟩

/-- C7: collecting a `(block_tag, txid)` that was never registered through
`add_outputs` returns the empty mapping — not an error, not blocking — and
leaves the runner's state, in particular every other pending entry,
unchanged. -/
theorem claim_C7_collect_unregistered [Inhabited A]
    (decryptOne : List IVK → D × Output → Option ((Note × Recipient) × Nat))
    (keys : List (A × IVK)) (N : Nat)
    (evs : List (ScanEvent D Output BlockTag TxId))
    {s : BatchRunner A IVK D Output Note Recipient BlockTag TxId}
    (hreach : runTrace decryptOne (BatchRunner.new N keys) evs = some s)
    (block_tag : BlockTag) (txid : TxId)
    (hnreg : ({ block_tag := block_tag, txid := txid } :
      ResultKey BlockTag TxId) ∉ addKeys evs) :
    s.collect_results block_tag txid = some (s, []) := by
  have hnone := runTrace_lookup_none hreach rfl hnreg
  rw [BatchRunner.collect_results, hnone]

/-- The runner state used by the collect-without-registration witness. -/
def wStateC4B : RunnerN :=
  BatchRunner.mk 10 (Batch.mk [1] [3] [(0, 5)] [OutputIndex.mk 0 0])
    [(ResultKey.mk 0 1, 0)] 1 [] []

theorem claim_C7_collect_unregistered_witness :
    runTrace decNat (BatchRunner.new 10 [(1, 3)] : RunnerN)
        [ScanEvent.addOutputs 0 1 domN [5]] = some wStateC4B ∧
    ({ block_tag := 0, txid := 2 } : ResultKey Nat Nat) ∉
      addKeys [ScanEvent.addOutputs 0 1 domN ([5] : List Nat)] ∧
    wStateC4B.collect_results 0 2 = some (wStateC4B, []) :=
  ⟨rfl, by decide,
    claim_C7_collect_unregistered decNat [(1, 3)] 10
      [ScanEvent.addOutputs 0 1 domN [5]]
      (rfl : runTrace decNat (BatchRunner.new 10 [(1, 3)] : RunnerN)
        [ScanEvent.addOutputs 0 1 domN [5]] = some wStateC4B)
      0 2 (by decide)⟩

/-- C10: registering an empty output slice on a reachable runner still
inserts a pending-results entry for the freshly created channel, creates no
replier for it anywhere (its only sender is gone when the call returns),
and a subsequent `collect_results` for that key returns the empty mapping
immediately, with no flush or batch execution required. -/
theorem claim_C10_zero_output_registration [Inhabited A]
    (decryptOne : List IVK → D × Output → Option ((Note × Recipient) × Nat))
    (keys : List (A × IVK)) {N : Nat}
    (evs : List (ScanEvent D Output BlockTag TxId))
    {s : BatchRunner A IVK D Output Note Recipient BlockTag TxId}
    (hreach : runTrace decryptOne (BatchRunner.new N keys) evs = some s)
    (block_tag : BlockTag) (txid : TxId) (domain : Unit → D) :
    ∃ s1, s.add_outputs decryptOne block_tag txid domain [] = some s1 ∧
      lookupKey { block_tag := block_tag, txid := txid } s1.pending_results =
        some s.next_channel ∧
      (∀ r ∈ s1.acc.repliers, r.value ≠ s.next_channel) ∧
      (∀ b ∈ s1.submitted_batches, ∀ r ∈ b.repliers,
        r.value ≠ s.next_channel) ∧
      s1.collect_results block_tag txid =
        some
          ({ s1 with
              pending_results :=
                removeKey (⟨block_tag, txid⟩ : ResultKey BlockTag TxId)
                  s1.pending_results },
            []) := by
  have hinv := runnerInv_runTrace (runnerInv_new N keys) hreach
  obtain ⟨s1, hstep, _⟩ := runnerInv_scanStep decryptOne hinv
    (.addOutputs block_tag txid domain [])
  rw [scanStep] at hstep
  have hpend := add_outputs_pending hstep
  have hcoreinv := runnerInv_addCore hinv block_tag txid domain
    ([] : List Output)
  have hcases : s1 = addOutputsCore s block_tag txid domain [] ∨
      s1 = flushedState decryptOne (addOutputsCore s block_tag txid domain []) := by
    rw [add_outputs_eq] at hstep
    by_cases hth : s.batch_size_threshold ≤
        s.acc.outputs.length + ([] : List Output).length
    · rw [if_pos hth] at hstep
      by_cases hemp : (addOutputsCore s block_tag txid domain []).acc.outputs = []
      · rw [flush_eq_empty decryptOne hemp, Option.some.injEq] at hstep
        exact Or.inl hstep.symm
      · rw [flush_eq_nonempty decryptOne hemp (runnerInv_tags_len hcoreinv),
          Option.some.injEq] at hstep
        exact Or.inr hstep.symm
    · rw [if_neg hth, Option.some.injEq] at hstep
      exact Or.inl hstep.symm
  have hcoreacc : (addOutputsCore s block_tag txid domain []).acc = s.acc := by
    simp [addOutputsCore, Batch.add_outputs_nil]
  have hacc1 : ∀ r ∈ s1.acc.repliers, r.value ≠ s.next_channel := by
    rcases hcases with hc | hc <;> rw [hc]
    · rw [hcoreacc]
      intro r hr
      exact Nat.ne_of_lt (hinv.acc_chans r hr)
    · intro r hr
      simp only [flushedState, List.not_mem_nil] at hr
  have hsub1 : ∀ b ∈ s1.submitted_batches, ∀ r ∈ b.repliers,
      r.value ≠ s.next_channel := by
    rcases hcases with hc | hc <;> rw [hc]
    · intro b hb r hr
      exact Nat.ne_of_lt (hinv.submitted_chans b hb r hr)
    · intro b hb r hr
      simp only [flushedState, List.mem_append, List.mem_singleton] at hb
      rcases hb with hb | hb
      · exact Nat.ne_of_lt (hinv.submitted_chans b hb r hr)
      · rw [hb, hcoreacc] at hr
        exact Nat.ne_of_lt (hinv.acc_chans r hr)
  have hdel1 : ∀ m ∈ s1.delivered, m.1 ≠ s.next_channel := by
    rcases hcases with hc | hc <;> rw [hc]
    · intro m hm
      exact Nat.ne_of_lt (hinv.delivered_chans m hm)
    · intro m hm
      simp only [flushedState, List.mem_append] at hm
      rcases hm with hm | hm
      · exact Nat.ne_of_lt (hinv.delivered_chans m hm)
      · obtain ⟨c, item⟩ := m
        obtain ⟨r, hr, hrc⟩ := Batch.run_mem_chan hm
        rw [hcoreacc] at hr
        rw [← hrc]
        exact Nat.ne_of_lt (hinv.acc_chans r hr)
  have hlook : lookupKey { block_tag := block_tag, txid := txid }
      s1.pending_results = some s.next_channel := by
    rw [hpend]
    exact lookupKey_insertKey_self _ _ _
  exact ⟨s1, hstep, hlook, hacc1, hsub1,
    collect_results_empty_of_chan hlook hacc1 hdel1⟩

theorem claim_C10_zero_output_registration_witness :
    runTrace decNat (BatchRunner.new 2 [(1, 3)] : RunnerN) [] =
      some (BatchRunner.new 2 [(1, 3)]) ∧
    (∃ s1, (BatchRunner.new 2 [(1, 3)] : RunnerN).add_outputs decNat 0 0 domN
        [] = some s1 ∧
      lookupKey { block_tag := 0, txid := 0 } s1.pending_results =
        some (BatchRunner.new 2 [(1, 3)] : RunnerN).next_channel ∧
      (∀ r ∈ s1.acc.repliers,
        r.value ≠ (BatchRunner.new 2 [(1, 3)] : RunnerN).next_channel) ∧
      (∀ b ∈ s1.submitted_batches, ∀ r ∈ b.repliers,
        r.value ≠ (BatchRunner.new 2 [(1, 3)] : RunnerN).next_channel) ∧
      s1.collect_results 0 0 =
        some
          ({ s1 with
              pending_results :=
                removeKey (⟨0, 0⟩ : ResultKey Nat Nat) s1.pending_results },
            [])) :=
  ⟨rfl,
    claim_C10_zero_output_registration decNat [(1, 3)] []
      (rfl : runTrace decNat (BatchRunner.new 2 [(1, 3)] : RunnerN) [] =
        some (BatchRunner.new 2 [(1, 3)]))
      0 0 domN⟩

/-! ### Tracking one registration through a trace (completeness machinery) -/

theorem zip_get_some {α β : Type} {l1 : List α} {l2 : List β} {j : Nat}
    {a : α} {b : β} (h1 : l1[j]? = some a) (h2 : l2[j]? = some b) :
    (l1.zip l2)[j]? = some (a, b) := by
  induction l1 generalizing l2 j with
  | nil => simp at h1
  | cons x xs ih =>
    cases l2 with
    | nil => simp at h2
    | cons y ys =>
      cases j with
      | zero =>
        simp only [List.getElem?_cons_zero, Option.some.injEq] at h1 h2
        subst h1
        subst h2
        simp [List.zip_cons_cons]
      | succ j =>
        simp only [List.getElem?_cons_succ] at h1 h2
        simpa [List.zip_cons_cons] using ih h1 h2

/-- If every replier the loop is given is live and position `j` holds a
successful decryption, its message is among the sends. -/
theorem runLoop_mem_of_get [Inhabited A] {tags : List A} {live : Nat → Bool}
    {l : List (Option ((Note × Recipient) × Nat) × OutputReplier)}
    (hlive : ∀ p ∈ l, live p.2.value = true) {j : Nat} {note : Note}
    {recipient : Recipient} {k : Nat} {rep : OutputReplier}
    (hj : l[j]? = some (some ((note, recipient), k), rep)) :
    (rep.value, OutputIndex.mk rep.output_index
        (DecryptedNote.mk (tags.getD k default) recipient note)) ∈
      runLoop tags live l := by
  induction l generalizing j with
  | nil => simp at hj
  | cons p rest ih =>
    obtain ⟨res, r0⟩ := p
    cases j with
    | zero =>
      simp only [List.getElem?_cons_zero, Option.some.injEq] at hj
      rw [hj]
      rw [runLoop]
      have : live rep.value = true := by
        have := hlive (res, r0) (List.mem_cons_self _ _)
        rw [hj] at this
        exact this
      rw [if_pos this]
      exact List.mem_cons_self _ _
    | succ j =>
      simp only [List.getElem?_cons_succ] at hj
      have htail := ih (fun q hq => hlive q (List.mem_cons_of_mem _ hq)) hj
      match res with
      | none =>
        rw [runLoop]
        exact htail
      | some ((note0, recipient0), k0) =>
        rw [runLoop]
        rw [if_pos (hlive (some ((note0, recipient0), k0), r0)
          (List.mem_cons_self _ _))]
        exact List.mem_cons_of_mem _ htail

/-- `Batch::run` delivers the decryption result of position `j` to position
`j`'s replier whenever every receiver the batch replies to is alive. -/
theorem Batch.run_mem_of_get [Inhabited A]
    {decryptOne : List IVK → D × Output → Option ((Note × Recipient) × Nat)}
    {live : Nat → Bool} {b : Batch A IVK D Output}
    (hlive : ∀ r ∈ b.repliers, live r.value = true) {j : Nat}
    {out : D × Output} {rep : OutputReplier}
    (ho : b.outputs[j]? = some out) (hr : b.repliers[j]? = some rep)
    {note : Note} {recipient : Recipient} {k : Nat}
    (hdec : decryptOne b.ivks out = some ((note, recipient), k)) :
    (rep.value, OutputIndex.mk rep.output_index
        (DecryptedNote.mk (b.tags.getD k default) recipient note)) ∈
      b.run decryptOne live := by
  apply runLoop_mem_of_get
  · intro p hp
    exact hlive p.2 (List.of_mem_zip hp).2
  · refine zip_get_some ?_ hr
    rw [tryCompactNoteDecryption, List.getElem?_map, ho]
    simp [hdec]

theorem not_mem_keys_of_forall [DecidableEq K] {k : K} {l : List (K × Nat)}
    (h : ∀ v, (k, v) ∉ l) : k ∉ l.map Prod.fst := by
  intro hm
  obtain ⟨kv, hkv, he⟩ := List.mem_map.mp hm
  apply h kv.2
  rw [← he]
  simpa using hkv

theorem liveChans_append_right [DecidableEq K] {l : List (K × Nat)}
    (p : K × Nat) {c : Nat} (h : liveChans l c = true) :
    liveChans (l ++ [p]) c = true := by
  simp only [liveChans, List.any_append, Bool.or_eq_true]
  exact Or.inl h

/-- Collecting a registered key whose senders are all gone returns exactly
the delivered messages of its channel, as an index-to-note mapping. -/
theorem collect_results_eq_of_chan
    {s : BatchRunner A IVK D Output Note Recipient BlockTag TxId}
    {block_tag : BlockTag} {txid : TxId} {c : Nat}
    (hl : lookupKey { block_tag := block_tag, txid := txid }
      s.pending_results = some c)
    (hacc : ∀ r ∈ s.acc.repliers, r.value ≠ c) :
    s.collect_results block_tag txid =
      some
        ({ s with
            pending_results :=
              removeKey (⟨block_tag, txid⟩ : ResultKey BlockTag TxId)
                s.pending_results },
          s.delivered.filterMap fun m =>
            if m.1 = c then some ((txid, m.2.output_index), m.2.value)
            else none) := by
  have hany : s.acc.repliers.any (fun r => r.value = c) = false := by
    rw [List.any_eq_false]
    intro r hr
    simpa using hacc r hr
  simp only [BatchRunner.collect_results, hl, hany, Bool.false_eq_true,
    if_false]

theorem runTrace_append [Inhabited A]
    {decryptOne : List IVK → D × Output → Option ((Note × Recipient) × Nat)}
    (s : BatchRunner A IVK D Output Note Recipient BlockTag TxId)
    (l1 l2 : List (ScanEvent D Output BlockTag TxId)) :
    runTrace decryptOne s (l1 ++ l2) =
      (runTrace decryptOne s l1).bind fun s1 => runTrace decryptOne s1 l2 := by
  induction l1 generalizing s with
  | nil => simp [runTrace]
  | cons ev evs ih =>
    rw [List.cons_append, runTrace]
    cases hstep : scanStep decryptOne s ev with
    | none => simp [runTrace, hstep]
    | some s1 =>
      show runTrace decryptOne s1 (evs ++ l2) =
        (runTrace decryptOne s (ev :: evs)).bind fun s2 =>
          runTrace decryptOne s2 l2
      rw [ih s1]
      congr 1
      rw [runTrace, hstep]

theorem lt_of_getElem_some {α : Type} {l : List α} {n : Nat} {a : α}
    (h : l[n]? = some a) : n < l.length :=
  (List.getElem?_eq_some_iff.mp h).1

theorem runnerInv_scanStep_eq [Inhabited A]
    {decryptOne : List IVK → D × Output → Option ((Note × Recipient) × Nat)}
    {keys : List (A × IVK)}
    {s s1 : BatchRunner A IVK D Output Note Recipient BlockTag TxId}
    {ev : ScanEvent D Output BlockTag TxId} (h : RunnerInv keys s)
    (hstep : scanStep decryptOne s ev = some s1) : RunnerInv keys s1 := by
  obtain ⟨s2, h2, hinv2⟩ := runnerInv_scanStep decryptOne h ev
  rw [h2, Option.some.injEq] at hstep
  rw [← hstep]
  exact hinv2

/-- Every replier of the accumulating batch points at a channel whose
receiver is still alive.  This holds along every trace that never registers
the same result key twice (overwrites are what drop receivers early). -/
def AllLive (s : BatchRunner A IVK D Output Note Recipient BlockTag TxId) :
    Prop :=
  ∀ r ∈ s.acc.repliers, liveChans s.pending_results r.value = true

/-- The state of one tracked registration: its result key, the channel it
created, and its domain factory and output slice.  Holds from the moment
the registration happens until collection: the key is still bound to the
channel, and the tracked group either still sits in the accumulator (as
aligned segments of `outputs` and `repliers`) or its decryption results
have been delivered on the channel. -/
structure Tracked [Inhabited A]
    (decryptOne : List IVK → D × Output → Option ((Note × Recipient) × Nat))
    (keys : List (A × IVK)) (key : ResultKey BlockTag TxId) (chan : Nat)
    (domain : Unit → D) (outputs : List Output)
    (s : BatchRunner A IVK D Output Note Recipient BlockTag TxId) : Prop where
  lookup_eq : lookupKey key s.pending_results = some chan
  group_or_msg :
    (∃ p, ∀ i out, outputs[i]? = some out →
      s.acc.outputs[p + i]? = some (domain (), out) ∧
      s.acc.repliers[p + i]? = some (OutputIndex.mk i chan)) ∨
    (∀ i out note recipient k, outputs[i]? = some out →
      decryptOne (keys.map Prod.snd) (domain (), out) =
        some ((note, recipient), k) →
      (chan, OutputIndex.mk i
        (DecryptedNote.mk ((keys.map Prod.fst).getD k default)
          recipient note)) ∈ s.delivered)

theorem allLive_flush [Inhabited A]
    {decryptOne : List IVK → D × Output → Option ((Note × Recipient) × Nat)}
    {s s1 : BatchRunner A IVK D Output Note Recipient BlockTag TxId}
    (hflush : s.flush decryptOne = some s1) (hlive : AllLive s) :
    AllLive s1 := by
  rw [BatchRunner.flush] at hflush
  by_cases he : s.acc.is_empty
  · simp only [he, if_pos, Option.some.injEq] at hflush
    rw [← hflush]
    exact hlive
  · simp only [he, if_neg, not_false_iff] at hflush
    obtain ⟨b, hb, hs⟩ := Option.map_eq_some'.mp hflush
    have hbrep : b.repliers = [] := by
      rw [Batch.fresh] at hb
      by_cases hlen : s.acc.tags.length = s.acc.ivks.length
      · rw [if_pos hlen, Option.some.injEq] at hb
        rw [← hb]
      · rw [if_neg hlen] at hb
        cases hb
    rw [← hs]
    intro r hr
    have : r ∈ b.repliers := hr
    rw [hbrep] at this
    cases this

/-- The intermediate state of `add_outputs` keeps all repliers live when
the registered key is not already present (insert is then an append, so no
receiver is dropped, and the new repliers point at the new receiver). -/
theorem allLive_addCore
    {s : BatchRunner A IVK D Output Note Recipient BlockTag TxId}
    {block_tag : BlockTag} {txid : TxId} (domain : Unit → D)
    (outputs : List Output) (hlive : AllLive s)
    (hfresh : ∀ v, ((⟨block_tag, txid⟩ : ResultKey BlockTag TxId), v) ∉
      s.pending_results) :
    AllLive (addOutputsCore s block_tag txid domain outputs) := by
  have hins : insertKey (⟨block_tag, txid⟩ : ResultKey BlockTag TxId)
      s.next_channel s.pending_results =
      s.pending_results ++ [(⟨block_tag, txid⟩, s.next_channel)] :=
    insertKey_of_not_mem _ (not_mem_keys_of_forall hfresh)
  intro r hr
  show liveChans (insertKey (⟨block_tag, txid⟩ : ResultKey BlockTag TxId)
    s.next_channel s.pending_results) r.value = true
  rw [hins]
  rcases Batch.add_outputs_repliers_mem hr with h1 | h1
  · exact liveChans_append_right _ (hlive r h1)
  · rw [h1]
    exact liveChans_eq_true_of_mem
      (List.mem_append_right _ (List.mem_singleton.mpr rfl))

theorem allLive_add [Inhabited A]
    {decryptOne : List IVK → D × Output → Option ((Note × Recipient) × Nat)}
    {s s1 : BatchRunner A IVK D Output Note Recipient BlockTag TxId}
    {block_tag : BlockTag} {txid : TxId} {domain : Unit → D}
    {outputs : List Output} (hlive : AllLive s)
    (hfresh : ∀ v, ((⟨block_tag, txid⟩ : ResultKey BlockTag TxId), v) ∉
      s.pending_results)
    (hstep : s.add_outputs decryptOne block_tag txid domain outputs = some s1) :
    AllLive s1 := by
  have hcore := allLive_addCore domain outputs hlive hfresh
  rw [add_outputs_eq] at hstep
  by_cases hth : s.batch_size_threshold ≤ s.acc.outputs.length + outputs.length
  · rw [if_pos hth] at hstep
    exact allLive_flush hstep hcore
  · rw [if_neg hth, Option.some.injEq] at hstep
    rw [← hstep]
    exact hcore

theorem tracked_flush [Inhabited A]
    {decryptOne : List IVK → D × Output → Option ((Note × Recipient) × Nat)}
    {keys : List (A × IVK)} {key : ResultKey BlockTag TxId} {chan : Nat}
    {domain : Unit → D} {outputs : List Output}
    {s s1 : BatchRunner A IVK D Output Note Recipient BlockTag TxId}
    (hinv : RunnerInv keys s) (hlive : AllLive s)
    (htr : Tracked decryptOne keys key chan domain outputs s)
    (hflush : s.flush decryptOne = some s1) :
    Tracked decryptOne keys key chan domain outputs s1 := by
  by_cases hc : s.acc.outputs = []
  · rw [flush_eq_empty decryptOne hc, Option.some.injEq] at hflush
    rw [← hflush]
    exact htr
  · rw [flush_eq_nonempty decryptOne hc (runnerInv_tags_len hinv),
      Option.some.injEq] at hflush
    rw [← hflush]
    refine ⟨htr.lookup_eq, ?_⟩
    right
    intro i out note recipient k hout hdec
    show (chan, OutputIndex.mk i
        (DecryptedNote.mk ((keys.map Prod.fst).getD k default)
          recipient note)) ∈
      s.delivered ++ s.acc.run decryptOne (liveChans s.pending_results)
    rcases htr.group_or_msg with ⟨p, hg⟩ | hmsg
    · have hg2 := hg i out hout
      have hdec2 : decryptOne s.acc.ivks (domain (), out) =
          some ((note, recipient), k) := by
        rw [hinv.ivks_eq]
        exact hdec
      have hsend := Batch.run_mem_of_get hlive hg2.1 hg2.2 hdec2
      rw [hinv.tags_eq] at hsend
      exact List.mem_append_right _ hsend
    · exact List.mem_append_left _ (hmsg i out note recipient k hout hdec)

theorem tracked_add [Inhabited A]
    {decryptOne : List IVK → D × Output → Option ((Note × Recipient) × Nat)}
    {keys : List (A × IVK)} {key : ResultKey BlockTag TxId} {chan : Nat}
    {domain : Unit → D} {outputs : List Output}
    {s s1 : BatchRunner A IVK D Output Note Recipient BlockTag TxId}
    {b2 : BlockTag} {t2 : TxId} {d2 : Unit → D} {o2 : List Output}
    (hinv : RunnerInv keys s) (hlive : AllLive s)
    (htr : Tracked decryptOne keys key chan domain outputs s)
    (hfresh : ∀ v, ((⟨b2, t2⟩ : ResultKey BlockTag TxId), v) ∉
      s.pending_results)
    (hne : (⟨b2, t2⟩ : ResultKey BlockTag TxId) ≠ key)
    (hstep : s.add_outputs decryptOne b2 t2 d2 o2 = some s1) :
    Tracked decryptOne keys key chan domain outputs s1 := by
  have hcore : Tracked decryptOne keys key chan domain outputs
      (addOutputsCore s b2 t2 d2 o2) := by
    refine ⟨?_, ?_⟩
    · show lookupKey key (insertKey (⟨b2, t2⟩ : ResultKey BlockTag TxId)
        s.next_channel s.pending_results) = some chan
      rw [lookupKey_insertKey_ne _ _ (Ne.symm hne)]
      exact htr.lookup_eq
    · rcases htr.group_or_msg with ⟨p, hg⟩ | hmsg
      · left
        refine ⟨p, fun i out hout => ?_⟩
        have hg2 := hg i out hout
        constructor
        · show (s.acc.outputs ++ o2.map fun output => (d2 (), output))[p + i]?
            = some (domain (), out)
          rw [List.getElem?_append_left (lt_of_getElem_some hg2.1)]
          exact hg2.1
        · show (s.acc.repliers ++ (List.range o2.length).map fun output_index
              => OutputIndex.mk output_index s.next_channel)[p + i]?
            = some (OutputIndex.mk i chan)
          rw [List.getElem?_append_left (lt_of_getElem_some hg2.2)]
          exact hg2.2
      · right
        exact hmsg
  have hlivecore := allLive_addCore d2 o2 hlive hfresh
  rw [add_outputs_eq] at hstep
  by_cases hth : s.batch_size_threshold ≤ s.acc.outputs.length + o2.length
  · rw [if_pos hth] at hstep
    exact tracked_flush (runnerInv_addCore hinv b2 t2 d2 o2) hlivecore hcore
      hstep
  · rw [if_neg hth, Option.some.injEq] at hstep
    rw [← hstep]
    exact hcore

theorem tracked_start [Inhabited A]
    {decryptOne : List IVK → D × Output → Option ((Note × Recipient) × Nat)}
    {keys : List (A × IVK)}
    {s s1 : BatchRunner A IVK D Output Note Recipient BlockTag TxId}
    {block_tag : BlockTag} {txid : TxId} {domain : Unit → D}
    {outputs : List Output} (hinv : RunnerInv keys s) (hlive : AllLive s)
    (hfresh : ∀ v, ((⟨block_tag, txid⟩ : ResultKey BlockTag TxId), v) ∉
      s.pending_results)
    (hstep : s.add_outputs decryptOne block_tag txid domain outputs = some s1) :
    Tracked decryptOne keys (⟨block_tag, txid⟩ : ResultKey BlockTag TxId)
      s.next_channel domain outputs s1 := by
  have hcore : Tracked decryptOne keys
      (⟨block_tag, txid⟩ : ResultKey BlockTag TxId) s.next_channel domain
      outputs (addOutputsCore s block_tag txid domain outputs) := by
    refine ⟨?_, ?_⟩
    · exact lookupKey_insertKey_self _ _ _
    · left
      refine ⟨s.acc.outputs.length, fun i out hout => ?_⟩
      have hi : i < outputs.length := lt_of_getElem_some hout
      constructor
      · show (s.acc.outputs ++ outputs.map fun output =>
            (domain (), output))[s.acc.outputs.length + i]?
          = some (domain (), out)
        rw [List.getElem?_append_right (Nat.le_add_right _ _)]
        rw [Nat.add_sub_cancel_left]
        rw [List.getElem?_map, hout]
        rfl
      · show (s.acc.repliers ++ (List.range outputs.length).map
            fun output_index => OutputIndex.mk output_index
              s.next_channel)[s.acc.outputs.length + i]?
          = some (OutputIndex.mk i s.next_channel)
        rw [hinv.acc_len, List.getElem?_append_right (Nat.le_add_right _ _)]
        rw [Nat.add_sub_cancel_left]
        rw [List.getElem?_map, List.getElem?_range hi]
        rfl
  have hlivecore := allLive_addCore domain outputs hlive hfresh
  rw [add_outputs_eq] at hstep
  by_cases hth : s.batch_size_threshold ≤ s.acc.outputs.length + outputs.length
  · rw [if_pos hth] at hstep
    exact tracked_flush (runnerInv_addCore hinv block_tag txid domain outputs)
      hlivecore hcore hstep
  · rw [if_neg hth, Option.some.injEq] at hstep
    rw [← hstep]
    exact hcore

/-- After a step, the keys of the remaining events are still unregistered,
provided no event key repeats. -/
theorem fresh_keys_step [Inhabited A]
    {decryptOne : List IVK → D × Output → Option ((Note × Recipient) × Nat)}
    {s s1 : BatchRunner A IVK D Output Note Recipient BlockTag TxId}
    {ev : ScanEvent D Output BlockTag TxId}
    {rest : List (ScanEvent D Output BlockTag TxId)}
    (hstep : scanStep decryptOne s ev = some s1)
    (hkeys : ∀ k2 ∈ addKeys (ev :: rest), ∀ v, (k2, v) ∉ s.pending_results)
    (hnd : (addKeys (ev :: rest)).Nodup) :
    ∀ k2 ∈ addKeys rest, ∀ v, (k2, v) ∉ s1.pending_results := by
  match ev with
  | .flushEv =>
    rw [scanStep] at hstep
    intro k2 hk2 v hv
    rw [(flush_shape hstep).2.1] at hv
    exact hkeys k2 (by rw [addKeys]; exact hk2) v hv
  | .addOutputs b2 t2 d2 o2 =>
    rw [scanStep] at hstep
    have hpend := add_outputs_pending hstep
    rw [addKeys] at hnd
    rw [List.nodup_cons] at hnd
    intro k2 hk2 v hv
    rw [hpend] at hv
    rcases mem_insertKey hv with h1 | h1
    · have : k2 = { block_tag := b2, txid := t2 } := congrArg Prod.fst h1
      rw [this] at hk2
      exact hnd.1 hk2
    · exact hkeys k2 (by rw [addKeys]; exact List.mem_cons_of_mem _ hk2) v h1

theorem allLive_runTrace [Inhabited A]
    {decryptOne : List IVK → D × Output → Option ((Note × Recipient) × Nat)}
    {s s1 : BatchRunner A IVK D Output Note Recipient BlockTag TxId}
    {evs : List (ScanEvent D Output BlockTag TxId)}
    (hrun : runTrace decryptOne s evs = some s1) (hlive : AllLive s)
    (hkeys : ∀ k2 ∈ addKeys evs, ∀ v, (k2, v) ∉ s.pending_results)
    (hnd : (addKeys evs).Nodup) : AllLive s1 := by
  induction evs generalizing s with
  | nil =>
    rw [runTrace, Option.some.injEq] at hrun
    rw [← hrun]
    exact hlive
  | cons ev evs ih =>
    rw [runTrace] at hrun
    cases hstep : scanStep decryptOne s ev with
    | none => rw [hstep] at hrun; simp at hrun
    | some s2 =>
      rw [hstep] at hrun
      have hkeys2 := fresh_keys_step hstep hkeys hnd
      have hnd2 : (addKeys evs).Nodup := by
        match ev with
        | .flushEv => rw [addKeys] at hnd; exact hnd
        | .addOutputs b2 t2 d2 o2 =>
          rw [addKeys, List.nodup_cons] at hnd
          exact hnd.2
      have hlive2 : AllLive s2 := by
        match ev with
        | .flushEv =>
          rw [scanStep] at hstep
          exact allLive_flush hstep hlive
        | .addOutputs b2 t2 d2 o2 =>
          rw [scanStep] at hstep
          exact allLive_add hlive
            (hkeys { block_tag := b2, txid := t2 }
              (by rw [addKeys]; exact List.mem_cons_self _ _))
            hstep
      exact ih hrun hlive2 hkeys2 hnd2

theorem tracked_runTrace [Inhabited A]
    {decryptOne : List IVK → D × Output → Option ((Note × Recipient) × Nat)}
    {keys : List (A × IVK)} {key : ResultKey BlockTag TxId} {chan : Nat}
    {domain : Unit → D} {outputs : List Output}
    {s s1 : BatchRunner A IVK D Output Note Recipient BlockTag TxId}
    {evs : List (ScanEvent D Output BlockTag TxId)}
    (hrun : runTrace decryptOne s evs = some s1) (hinv : RunnerInv keys s)
    (hlive : AllLive s)
    (htr : Tracked decryptOne keys key chan domain outputs s)
    (hkeys : ∀ k2 ∈ addKeys evs, ∀ v, (k2, v) ∉ s.pending_results)
    (hnd : (addKeys evs).Nodup) (hkey : key ∉ addKeys evs) :
    Tracked decryptOne keys key chan domain outputs s1 := by
  induction evs generalizing s with
  | nil =>
    rw [runTrace, Option.some.injEq] at hrun
    rw [← hrun]
    exact htr
  | cons ev evs ih =>
    rw [runTrace] at hrun
    cases hstep : scanStep decryptOne s ev with
    | none => rw [hstep] at hrun; simp at hrun
    | some s2 =>
      rw [hstep] at hrun
      have hinv2 := runnerInv_scanStep_eq hinv hstep
      have hkeys2 := fresh_keys_step hstep hkeys hnd
      have hnd2 : (addKeys evs).Nodup := by
        match ev with
        | .flushEv => rw [addKeys] at hnd; exact hnd
        | .addOutputs b2 t2 d2 o2 =>
          rw [addKeys, List.nodup_cons] at hnd
          exact hnd.2
      have hkey2 : key ∉ addKeys evs := by
        match ev with
        | .flushEv => rw [addKeys] at hkey; exact hkey
        | .addOutputs b2 t2 d2 o2 =>
          rw [addKeys] at hkey
          exact fun hm => hkey (List.mem_cons_of_mem _ hm)
      have hpair : AllLive s2 ∧
          Tracked decryptOne keys key chan domain outputs s2 := by
        match ev with
        | .flushEv =>
          rw [scanStep] at hstep
          exact ⟨allLive_flush hstep hlive, tracked_flush hinv hlive htr hstep⟩
        | .addOutputs b2 t2 d2 o2 =>
          rw [scanStep] at hstep
          have hfresh2 := hkeys { block_tag := b2, txid := t2 }
            (by rw [addKeys]; exact List.mem_cons_self _ _)
          have hne2 : ({ block_tag := b2, txid := t2 } :
              ResultKey BlockTag TxId) ≠ key := by
            intro he
            apply hkey
            rw [addKeys, ← he]
            exact List.mem_cons_self _ _
          exact ⟨allLive_add hlive hfresh2 hstep,
            tracked_add hinv hlive htr hfresh2 hne2 hstep⟩
      exact ih hrun hinv2 hpair.1 hpair.2 hkeys2 hnd2 hkey2

theorem addKeys_append (l1 l2 : List (ScanEvent D Output BlockTag TxId)) :
    addKeys (l1 ++ l2) = addKeys l1 ++ addKeys l2 := by
  induction l1 with
  | nil => simp [addKeys]
  | cons ev evs ih =>
    match ev with
    | .flushEv => rw [List.cons_append, addKeys, addKeys, ih]
    | .addOutputs b2 t2 d2 o2 =>
      rw [List.cons_append, addKeys, addKeys, ih, List.cons_append]

/-- C1, amended with the precondition that no `(block_tag, txid)` result
key is registered twice (spec §9's duplicate-registration overwrite drops
the earlier receiver, which also makes the running batch abort delivery):
for every output registered by an `add_outputs` call that decrypts under
one of the keys supplied at construction, once the batch containing it has
been flushed and run — equivalently, no sender for its channel remains in
the accumulator — `collect_results` for its `(block_tag, txid)` returns a
mapping containing, at that output's index, a `DecryptedNote` carrying
`tags[matched_ivk_index]`, the recovered recipient, and the recovered
note; for every key set, output slice, threshold, and surrounding trace. -/
theorem claim_C1_completeness [Inhabited A]
    (decryptOne : List IVK → D × Output → Option ((Note × Recipient) × Nat))
    (keys : List (A × IVK)) (N : Nat)
    (pre post : List (ScanEvent D Output BlockTag TxId))
    (block_tag : BlockTag) (txid : TxId) (domain : Unit → D)
    (outputs : List Output)
    {s : BatchRunner A IVK D Output Note Recipient BlockTag TxId}
    (hnd : (addKeys (pre ++
      ScanEvent.addOutputs block_tag txid domain outputs :: post)).Nodup)
    (hrun : runTrace decryptOne (BatchRunner.new N keys)
      (pre ++ ScanEvent.addOutputs block_tag txid domain outputs :: post) =
      some s)
    (hflushed : ∀ r ∈ s.acc.repliers, r.value ≠ countAdds pre)
    {i : Nat} {out : Output} (hout : outputs[i]? = some out)
    {note : Note} {recipient : Recipient} {k : Nat}
    (hdec : decryptOne (keys.map Prod.snd) (domain (), out) =
      some ((note, recipient), k))
    (hk : k < keys.length) :
    ∃ s2 items, s.collect_results block_tag txid = some (s2, items) ∧
      ((txid, i), DecryptedNote.mk ((keys.map Prod.fst).getD k default)
        recipient note) ∈ items := by
  rw [runTrace_append] at hrun
  cases hpre : runTrace decryptOne (BatchRunner.new N keys) pre with
  | none => rw [hpre] at hrun; simp at hrun
  | some sp =>
    rw [hpre, Option.some_bind, runTrace] at hrun
    cases hstep : scanStep decryptOne sp
        (ScanEvent.addOutputs block_tag txid domain outputs) with
    | none => rw [hstep] at hrun; simp at hrun
    | some sm =>
      rw [hstep] at hrun
      -- decompose the no-duplicates hypothesis
      rw [addKeys_append, addKeys] at hnd
      have hdisj := List.disjoint_of_nodup_append hnd
      have hndr := hnd.of_append_right
      rw [List.nodup_cons] at hndr
      have hkeypre : ({ block_tag := block_tag, txid := txid } :
          ResultKey BlockTag TxId) ∉ addKeys pre := fun hm =>
        hdisj hm (List.mem_cons_self _ _)
      have hpostpre : ∀ k2 ∈ addKeys post, k2 ∉ addKeys pre := fun k2 hm hm2 =>
        hdisj hm2 (List.mem_cons_of_mem _ hm)
      -- facts about the pre-state
      have hinvp := runnerInv_runTrace (runnerInv_new N keys) hpre
      have hchan : sp.next_channel = countAdds pre := by
        have h1 := runTrace_next_channel hpre
        simpa [BatchRunner.new] using h1
      have hpendp : ∀ k2, k2 ∉ addKeys pre → ∀ v, (k2, v) ∉
          sp.pending_results := by
        intro k2 hk2 v hv
        rcases runTrace_pending_keys hpre hv with h1 | h1
        · simp [BatchRunner.new] at h1
        · exact hk2 h1
      have hlivep : AllLive sp := by
        refine allLive_runTrace hpre ?_ ?_ hnd.of_append_left
        · intro r hr
          simp [BatchRunner.new] at hr
        · intro k2 hk2 v hv
          simp [BatchRunner.new] at hv
      have hfreshkey := hpendp _ hkeypre
      -- track the registration through the rest of the trace
      have hinvm := runnerInv_scanStep_eq hinvp hstep
      rw [scanStep] at hstep
      have htrm := tracked_start hinvp hlivep hfreshkey hstep
      have hlivem := allLive_add hlivep hfreshkey hstep
      have hkeysm : ∀ k2 ∈ addKeys post, ∀ v, (k2, v) ∉
          sm.pending_results := by
        intro k2 hk2 v hv
        rw [add_outputs_pending hstep] at hv
        rcases mem_insertKey hv with h1 | h1
        · have : k2 = { block_tag := block_tag, txid := txid } :=
            congrArg Prod.fst h1
          rw [this] at hk2
          exact hndr.1 hk2
        · exact hpendp k2 (hpostpre k2 hk2) v h1
      have htrs := tracked_runTrace hrun hinvm hlivem htrm hkeysm hndr.2
        hndr.1
      -- collect the results
      have hflushed2 : ∀ r ∈ s.acc.repliers, r.value ≠ sp.next_channel := by
        rw [hchan]
        exact hflushed
      have hcoll := collect_results_eq_of_chan htrs.lookup_eq hflushed2
      have hmsg : (sp.next_channel, OutputIndex.mk i
          (DecryptedNote.mk ((keys.map Prod.fst).getD k default)
            recipient note)) ∈ s.delivered := by
        rcases htrs.group_or_msg with ⟨p, hg⟩ | hmsg
        · exfalso
          have hg2 := (hg i out hout).2
          exact hflushed2 _ (List.getElem?_mem hg2) rfl
        · exact hmsg i out note recipient k hout hdec
      refine ⟨_, _, hcoll, ?_⟩
      apply List.mem_filterMap.mpr
      refine ⟨(sp.next_channel, OutputIndex.mk i
        (DecryptedNote.mk ((keys.map Prod.fst).getD k default)
          recipient note)), hmsg, ?_⟩
      simp

/-- The state reached in the completeness witness: one registration of
output 103 under txid 0, then an explicit flush. -/
def wStateC1 : RunnerN :=
  BatchRunner.mk 10 (Batch.mk [1] [3] [] []) [(ResultKey.mk 0 0, 0)] 1
    [(0, OutputIndex.mk 0 (DecryptedNote.mk 1 0 103))]
    [Batch.mk [1] [3] [(0, 103)] [OutputIndex.mk 0 0]]

theorem claim_C1_completeness_witness :
    (addKeys ([] ++ ScanEvent.addOutputs 0 0 domN [103] ::
      [(ScanEvent.flushEv : EventN)])).Nodup ∧
    runTrace decNat (BatchRunner.new 10 [(1, 3)] : RunnerN)
      ([] ++ ScanEvent.addOutputs 0 0 domN [103] :: [ScanEvent.flushEv]) =
      some wStateC1 ∧
    (∀ r ∈ wStateC1.acc.repliers, r.value ≠ countAdds ([] : List EventN)) ∧
    ([103] : List Nat)[0]? = some 103 ∧
    decNat (([(1, 3)] : List (Nat × Nat)).map Prod.snd) (domN (), 103) =
      some ((103, 0), 0) ∧
    (∃ s2 items, wStateC1.collect_results 0 0 = some (s2, items) ∧
      ((0, 0), DecryptedNote.mk 1 0 103) ∈ items) :=
  ⟨by decide, rfl, by decide, rfl, rfl,
    claim_C1_completeness decNat [(1, 3)] 10 [] [ScanEvent.flushEv] 0 0 domN
      [103] (by decide)
      (rfl : runTrace decNat (BatchRunner.new 10 [(1, 3)] : RunnerN)
        ([] ++ ScanEvent.addOutputs 0 0 domN [103] :: [ScanEvent.flushEv]) =
        some wStateC1)
      (by decide) (rfl : ([103] : List Nat)[0]? = some 103) rfl (by decide)⟩

/-- The state reached by the completeness counterexample trace: register a
decryptable output under `(0, 0)`, register `(0, 0)` again (the overwrite
drops the first receiver), then flush.  The batch runs, its send fails, and
nothing is delivered. -/
def wStateC1cex : RunnerN :=
  BatchRunner.mk 10 (Batch.mk [1] [3] [] []) [(ResultKey.mk 0 0, 1)] 2 []
    [Batch.mk [1] [3] [(0, 103)] [OutputIndex.mk 0 0]]

/-- `wStateC1cex` after collecting `(0, 0)`. -/
def wStateC1cexAfter : RunnerN :=
  BatchRunner.mk 10 (Batch.mk [1] [3] [] []) [] 2 []
    [Batch.mk [1] [3] [(0, 103)] [OutputIndex.mk 0 0]]

/-- C1 as frozen is false on the code: output 103 is registered under
`(0, 0)` and decrypts under the supplied key (tag 1), the batch containing
it is flushed and has run (no replier remains in the accumulator), yet
`collect_results 0 0` returns the empty mapping — because a second
`add_outputs` for the same key overwrote the pending receiver, the batch's
send failed, and delivery was aborted. -/
theorem claim_C1_counterexample :
    decNat (([(1, 3)] : List (Nat × Nat)).map Prod.snd) (domN (), 103) =
      some ((103, 0), 0) ∧
    runTrace decNat (BatchRunner.new 10 [(1, 3)] : RunnerN)
      [ScanEvent.addOutputs 0 0 domN [103],
        ScanEvent.addOutputs 0 0 domN [],
        ScanEvent.flushEv] = some wStateC1cex ∧
    wStateC1cex.acc.repliers = [] ∧
    wStateC1cex.collect_results 0 0 = some (wStateC1cexAfter, []) :=
  ⟨rfl, rfl, rfl, rfl⟩

/-- C2, amended: the threshold check of `BatchRunner::add_outputs` runs
only after the entire slice has been appended, so one call's outputs are
never split across batches: they land together either in the accumulator
(no flush) or in the single batch submitted by this call; and each of the
slice's repliers is tagged with the output's position inside the slice
passed to that call (0, 1, ...), not a position in any larger
per-transaction list. -/
theorem claim_C2_slice_single_batch [Inhabited A]
    (decryptOne : List IVK → D × Output → Option ((Note × Recipient) × Nat))
    {s s1 : BatchRunner A IVK D Output Note Recipient BlockTag TxId}
    (block_tag : BlockTag) (txid : TxId) (domain : Unit → D)
    (outputs : List Output)
    (hstep : s.add_outputs decryptOne block_tag txid domain outputs = some s1) :
    (s1.acc.repliers = s.acc.repliers ++
        (List.range outputs.length).map (fun output_index =>
          OutputIndex.mk output_index s.next_channel) ∧
      s1.submitted_batches = s.submitted_batches) ∨
    (s1.acc.repliers = [] ∧
      ∃ b, s1.submitted_batches = s.submitted_batches ++ [b] ∧
        b.repliers = s.acc.repliers ++
          (List.range outputs.length).map (fun output_index =>
            OutputIndex.mk output_index s.next_channel) ∧
        b.outputs = s.acc.outputs ++
          outputs.map fun output => (domain (), output)) := by
  rw [add_outputs_eq] at hstep
  by_cases hth : s.batch_size_threshold ≤ s.acc.outputs.length + outputs.length
  · rw [if_pos hth] at hstep
    by_cases hemp : (addOutputsCore s block_tag txid domain outputs).acc.outputs
        = []
    · rw [flush_eq_empty decryptOne hemp, Option.some.injEq] at hstep
      rw [← hstep]
      exact Or.inl ⟨rfl, rfl⟩
    · have hlen : (addOutputsCore s block_tag txid domain
          outputs).acc.tags.length = (addOutputsCore s block_tag txid domain
          outputs).acc.ivks.length := by
        rw [BatchRunner.flush] at hstep
        by_cases hl : (addOutputsCore s block_tag txid domain
            outputs).acc.tags.length = (addOutputsCore s block_tag txid
            domain outputs).acc.ivks.length
        · exact hl
        · exfalso
          rw [Batch.is_empty] at hstep
          rw [if_neg (by simpa using hemp)] at hstep
          rw [Batch.fresh, if_neg hl] at hstep
          simp at hstep
      rw [flush_eq_nonempty decryptOne hemp hlen, Option.some.injEq] at hstep
      rw [← hstep]
      refine Or.inr ⟨rfl, (addOutputsCore s block_tag txid domain outputs).acc,
        rfl, rfl, rfl⟩
  · rw [if_neg hth, Option.some.injEq] at hstep
    rw [← hstep]
    exact Or.inl ⟨rfl, rfl⟩

/-- The state after the single `add_outputs` call of the C2 witness. -/
def wStateC2w : RunnerN :=
  BatchRunner.mk 10 (Batch.mk [1] [3] [(0, 5), (0, 9)]
      [OutputIndex.mk 0 0, OutputIndex.mk 1 0])
    [(ResultKey.mk 0 0, 0)] 1 [] []

theorem claim_C2_slice_single_batch_witness :
    (BatchRunner.new 10 [(1, 3)] : RunnerN).add_outputs decNat 0 0 domN
      [5, 9] = some wStateC2w ∧
    ((wStateC2w.acc.repliers =
        (BatchRunner.new 10 [(1, 3)] : RunnerN).acc.repliers ++
          (List.range ([5, 9] : List Nat).length).map (fun output_index =>
            OutputIndex.mk output_index
              (BatchRunner.new 10 [(1, 3)] : RunnerN).next_channel) ∧
      wStateC2w.submitted_batches =
        (BatchRunner.new 10 [(1, 3)] : RunnerN).submitted_batches) ∨
    (wStateC2w.acc.repliers = [] ∧
      ∃ b, wStateC2w.submitted_batches =
          (BatchRunner.new 10 [(1, 3)] : RunnerN).submitted_batches ++ [b] ∧
        b.repliers = (BatchRunner.new 10 [(1, 3)] : RunnerN).acc.repliers ++
          (List.range ([5, 9] : List Nat).length).map (fun output_index =>
            OutputIndex.mk output_index
              (BatchRunner.new 10 [(1, 3)] : RunnerN).next_channel) ∧
        b.outputs = (BatchRunner.new 10 [(1, 3)] : RunnerN).acc.outputs ++
          ([5, 9] : List Nat).map fun output => (domN (), output))) :=
  ⟨rfl,
    claim_C2_slice_single_batch decNat 0 0 domN [5, 9]
      (rfl : (BatchRunner.new 10 [(1, 3)] : RunnerN).add_outputs decNat 0 0
        domN [5, 9] = some wStateC2w)⟩

/-- The state reached by the C2 counterexample trace: with threshold 1,
transaction `(0, 0)`'s outputs are registered in two calls and end up in
two different flushed batches. -/
def wStateC2cex : RunnerN :=
  BatchRunner.mk 1 (Batch.mk [1] [3] [] []) [(ResultKey.mk 0 0, 1)] 2
    [(1, OutputIndex.mk 0 (DecryptedNote.mk 1 0 103))]
    [Batch.mk [1] [3] [(0, 5)] [OutputIndex.mk 0 0],
      Batch.mk [1] [3] [(0, 103)] [OutputIndex.mk 0 1]]

/-- `wStateC2cex` after collecting `(0, 0)`. -/
def wStateC2cexAfter : RunnerN :=
  BatchRunner.mk 1 (Batch.mk [1] [3] [] []) [] 2
    [(1, OutputIndex.mk 0 (DecryptedNote.mk 1 0 103))]
    [Batch.mk [1] [3] [(0, 5)] [OutputIndex.mk 0 0],
      Batch.mk [1] [3] [(0, 103)] [OutputIndex.mk 0 1]]

/-- C2 as frozen is false on the code: with threshold 1, transaction
`(0, 0)`'s outputs `[5, 103]` are split across two flushed batches (5 in
the first, 103 in the second); output 103 — the transaction's output at
position 1, and the only one that decrypts — appears in the collected
mapping keyed by index 0 (its position inside the second registered
slice), and no entry is keyed by index 1. -/
theorem claim_C2_counterexample :
    runTrace decNat (BatchRunner.new 1 [(1, 3)] : RunnerN)
      [ScanEvent.addOutputs 0 0 domN [5],
        ScanEvent.addOutputs 0 0 domN [103]] = some wStateC2cex ∧
    wStateC2cex.submitted_batches.length = 2 ∧
    decNat (([(1, 3)] : List (Nat × Nat)).map Prod.snd) (domN (), 103) =
      some ((103, 0), 0) ∧
    wStateC2cex.collect_results 0 0 =
      some (wStateC2cexAfter, [((0, 0), DecryptedNote.mk 1 0 103)]) :=
  ⟨rfl, rfl, rfl, rfl⟩

end Scan
